import Mathlib

set_option maxRecDepth 8192

/-!
Shallow embedding of `nfu` (src/nfu.go): the duration-string parser
`ParseDuration` and the file aggregator `calculateTotalDuration`.

Go strings are modelled as `List Char` (their Unicode scalar sequences;
valid UTF-8 is assumed, which every Lean `String` satisfies).  Machine
integers are modelled as `Nat` with the exact bounds the Go code checks
(`1<<63`, `1<<63/10`, …) and an explicit `% 2^64` at the one place the
`uint64` accumulator can wrap.  The two floating-point computations of the
source — the fractional part inside Go's `time.ParseDuration` and
`strconv.ParseFloat` followed by a float multiply in the fallback branch —
are modelled with exact rational arithmetic truncated toward zero; this
coincides with the `float64` computation whenever that computation is
exact (in particular for all integer values and products below `2^53`),
and every theorem below that depends on a numeric value confines itself to
that range.
-/

namespace Nfu

/-- The digit test `'0' <= c && c <= '9'` used byte-wise by Go's
`time.ParseDuration` (all digits are ASCII, so the char-level test
agrees). -/
def isDigitC (c : Char) : Bool := '0' ≤ c && c ≤ '9'

/-- A character at which Go's number scanner stops:
`c == '.' || '0' <= c && c <= '9'`. -/
def isDigitDot (c : Char) : Bool := c = '.' || isDigitC c

/-- A character Go's unit scanner consumes: anything that is not a digit
and not `'.'`. -/
def isUnitChar (c : Char) : Bool := !(isDigitDot c)

/-- U+00B5 MICRO SIGN, the `µ` of Go's `unitMap`. -/
def muChar : Char := Char.ofNat 0xB5

/-- U+03BC GREEK SMALL LETTER MU, also in Go's `unitMap`. -/
def greekMu : Char := Char.ofNat 0x3BC

/-- U+00C2, the first character of the mis-encoded `µ` literal that
appears in the source's unit switch (bytes C3 82 C2 B5 73 in the file,
i.e. the UTF-8 bytes of `µ` read as Latin-1 and re-encoded). -/
def hatA : Char := Char.ofNat 0xC2

/-- The numeric value of `c.toNat - '0'` for a digit character. -/
def digitVal (c : Char) : Nat := c.toNat - 48

/-- Go `time.leadingInt`: consume a leading run of digits into a `uint64`
accumulator, failing (like the Go code) when the accumulator would pass
`1<<63/10` before a multiply or `1<<63` after adding a digit. -/
def leadingInt (x : Nat) : List Char → Option (Nat × List Char)
  | [] => some (x, [])
  | c :: rest =>
    if isDigitC c then
      if x > 922337203685477580 then none
      else
        if x * 10 + digitVal c > 9223372036854775808 then none
        else leadingInt (x * 10 + digitVal c) rest
    else some (x, c :: rest)

/-- Go `time.leadingFraction`: consume fractional digits, saturating
silently (the `overflow` flag) instead of failing; `scale` is the power
of ten that is a `float64` in Go — exact there as well, since at most
twenty digits are ever accepted. -/
def leadingFraction (x scale : Nat) (overflow : Bool) :
    List Char → Nat × Nat × List Char
  | [] => (x, scale, [])
  | c :: rest =>
    if isDigitC c then
      if overflow then leadingFraction x scale overflow rest
      else if x > 922337203685477580 then leadingFraction x scale true rest
      else
        if x * 10 + digitVal c > 9223372036854775808 then
          leadingFraction x scale true rest
        else leadingFraction (x * 10 + digitVal c) (scale * 10) false rest
    else (x, scale, c :: rest)

/-- The `(\.[0-9]*)?` step of Go `time.ParseDuration`: if the remaining
input starts with `'.'`, consume it and the following fraction digits.
Returns `(f, scale, remainder, post)` where `post` records whether any
fraction digit was consumed. -/
def fracStep : List Char → Nat × Nat × List Char × Bool
  | [] => (0, 1, [], false)
  | c :: r =>
    if c = '.' then
      ((leadingFraction 0 1 false r).1, (leadingFraction 0 1 false r).2.1,
       (leadingFraction 0 1 false r).2.2,
       decide ((leadingFraction 0 1 false r).2.2.length ≠ r.length))
    else (0, 1, c :: r, false)

/-- Go's `unitMap`: the eight case-sensitive unit suffixes known to
`time.ParseDuration`, with their nanosecond factors. -/
def unitMap (u : List Char) : Option Nat :=
  if u = ['n', 's'] then some 1
  else if u = ['u', 's'] then some 1000
  else if u = [muChar, 's'] then some 1000
  else if u = [greekMu, 's'] then some 1000
  else if u = ['m', 's'] then some 1000000
  else if u = ['s'] then some 1000000000
  else if u = ['m'] then some 60000000000
  else if u = ['h'] then some 3600000000000
  else none

/-- The value of one segment after `v *= unit` and the fractional add
`v += uint64(float64(f) * (float64(unit) / scale))`, the latter modelled
as exact integer arithmetic (`f < scale`, so the addend is below the
largest unit, `3.6e12`, and no wrap is possible). -/
def segVal (v unit : Nat) (t : Nat × Nat × List Char × Bool) : Nat :=
  if 0 < t.1 then v * unit + t.1 * unit / t.2.1 else v * unit

/-- One iteration of the loop inside Go `time.ParseDuration`: number,
optional fraction, unit, with every overflow check of the original.
Returns the segment's value and the remaining input; `none` is any of
the original's error returns. -/
def goSegment (s : List Char) : Option (Nat × List Char) :=
  match s with
  | [] => none
  | c :: rest =>
    if !(isDigitDot c) then none
    else
      match leadingInt 0 (c :: rest) with
      | none => none
      | some (v, s1) =>
        if s1.length = (c :: rest).length ∧ (fracStep s1).2.2.2 = false then
          none
        else
          if (fracStep s1).2.2.1.takeWhile isUnitChar = [] then none
          else
            match unitMap ((fracStep s1).2.2.1.takeWhile isUnitChar) with
            | none => none
            | some unit =>
              if v > 9223372036854775808 / unit then none
              else
                if 0 < (fracStep s1).1 ∧
                    segVal v unit (fracStep s1) > 9223372036854775808 then
                  none
                else
                  some (segVal v unit (fracStep s1),
                        (fracStep s1).2.2.1.dropWhile isUnitChar)

theorem leadingInt_rem_length {x : Nat} {s r : List Char} {v : Nat}
    (h : leadingInt x s = some (v, r)) : r.length ≤ s.length := by
  induction s generalizing x with
  | nil =>
    simp only [leadingInt, Option.some.injEq, Prod.mk.injEq] at h
    simp [← h.2]
  | cons c rest ih =>
    rw [leadingInt] at h
    split at h
    · split at h
      · exact absurd h (by simp)
      · split at h
        · exact absurd h (by simp)
        · exact le_trans (ih h) (Nat.le_succ _)
    · simp only [Option.some.injEq, Prod.mk.injEq] at h
      simp [← h.2]

theorem leadingFraction_rem_length (x scale : Nat) (overflow : Bool)
    (s : List Char) :
    (leadingFraction x scale overflow s).2.2.length ≤ s.length := by
  induction s generalizing x scale overflow with
  | nil => simp [leadingFraction]
  | cons c rest ih =>
    rw [leadingFraction]
    split
    · split
      · exact le_trans (ih _ _ _) (Nat.le_succ _)
      · split
        · exact le_trans (ih _ _ _) (Nat.le_succ _)
        · split
          · exact le_trans (ih _ _ _) (Nat.le_succ _)
          · exact le_trans (ih _ _ _) (Nat.le_succ _)
    · simp

theorem fracStep_rem_length (s : List Char) :
    (fracStep s).2.2.1.length ≤ s.length := by
  cases s with
  | nil => simp [fracStep]
  | cons c r =>
    rw [fracStep]
    split
    · exact le_trans (leadingFraction_rem_length 0 1 false r) (Nat.le_succ _)
    · simp

theorem goSegment_rem_length {s r : List Char} {v : Nat}
    (h : goSegment s = some (v, r)) : r.length < s.length := by
  match s with
  | [] => simp [goSegment] at h
  | c :: rest =>
    rw [goSegment] at h
    split at h
    · exact absurd h (by simp)
    · match hli : leadingInt 0 (c :: rest) with
      | none => rw [hli] at h; exact absurd h (by simp)
      | some (v0, s1) =>
        rw [hli] at h
        simp only at h
        split at h
        · exact absurd h (by simp)
        · split at h
          · exact absurd h (by simp)
          · rename_i htw
            match hum : unitMap ((fracStep s1).2.2.1.takeWhile isUnitChar) with
            | none => rw [hum] at h; exact absurd h (by simp)
            | some unit =>
              rw [hum] at h
              simp only at h
              split at h
              · exact absurd h (by simp)
              · split at h
                · exact absurd h (by simp)
                · simp only [Option.some.injEq, Prod.mk.injEq] at h
                  have hr : r = (fracStep s1).2.2.1.dropWhile isUnitChar :=
                    h.2.symm
                  have hsplit := List.takeWhile_append_dropWhile
                    (p := isUnitChar) (l := (fracStep s1).2.2.1)
                  have h1 : r.length < (fracStep s1).2.2.1.length := by
                    rw [hr]
                    conv_rhs => rw [← hsplit]
                    rw [List.length_append]
                    have : 0 < ((fracStep s1).2.2.1.takeWhile isUnitChar).length := by
                      cases hq : (fracStep s1).2.2.1.takeWhile isUnitChar with
                      | nil => exact absurd hq htw
                      | cons a b => simp
                    omega
                  have h2 : (fracStep s1).2.2.1.length ≤ s1.length :=
                    fracStep_rem_length s1
                  have h3 : s1.length ≤ (c :: rest).length :=
                    leadingInt_rem_length hli
                  omega

/-- Recursion core of `goLoop`, structurally on a fuel that is always at
least the input length (each segment consumes at least one character). -/
def goLoopFuel : Nat → List Char → Nat → Option Nat
  | _, [], d => some d
  | 0, _ :: _, _ => none
  | n + 1, c :: rest, d =>
    match goSegment (c :: rest) with
    | none => none
    | some (v, r) =>
      if (d + v) % 18446744073709551616 > 9223372036854775808 then none
      else goLoopFuel n r ((d + v) % 18446744073709551616)

/-- The accumulation loop of Go `time.ParseDuration`: `d += v` in
`uint64` (hence the `% 2^64`), failing when `d` passes `1<<63`. -/
def goLoop (s : List Char) (d : Nat) : Option Nat :=
  goLoopFuel s.length s d

theorem goLoopFuel_adequate : ∀ n m : Nat, ∀ (s : List Char) (d : Nat),
    s.length ≤ n → s.length ≤ m → goLoopFuel n s d = goLoopFuel m s d := by
  intro n
  induction n with
  | zero =>
    intro m s d hn _
    match s with
    | [] => cases m <;> rfl
    | _ :: _ => simp at hn
  | succ n ih =>
    intro m s d hn hm
    match s with
    | [] => cases m <;> rfl
    | c :: rest =>
      match m with
      | 0 => simp at hm
      | m + 1 =>
        rw [goLoopFuel, goLoopFuel]
        rcases hseg : goSegment (c :: rest) with _ | ⟨v, r⟩
        · rfl
        · simp only
          have hr := goSegment_rem_length hseg
          simp only [List.length_cons] at hn hm hr
          split
          · rfl
          · exact ih m r _ (by omega) (by omega)

theorem goLoop_nil (d : Nat) : goLoop [] d = some d := rfl

theorem goLoop_cons (c : Char) (rest : List Char) (d : Nat) :
    goLoop (c :: rest) d =
      match goSegment (c :: rest) with
      | none => none
      | some (v, r) =>
        if (d + v) % 18446744073709551616 > 9223372036854775808 then none
        else goLoop r ((d + v) % 18446744073709551616) := by
  rw [goLoop, List.length_cons, goLoopFuel]
  rcases hseg : goSegment (c :: rest) with _ | ⟨v, r⟩
  · rfl
  · simp only
    have hr := goSegment_rem_length hseg
    simp only [List.length_cons] at hr
    split
    · rfl
    · rw [goLoop]
      exact goLoopFuel_adequate rest.length r.length r _ (by omega) le_rfl

/-- Go `time.ParseDuration` on a char list: optional sign, the `"0"`
special case, then the segment loop; the final conversion reproduces the
`uint64`→`int64` wrap that makes `-(1<<63)` representable.  `none` is
any of the stdlib's error returns (the caller in `nfu` only ever tests
`err != nil`, never inspects these errors). -/
def goParseTail (neg : Bool) (s : List Char) : Option Int :=
  if s = ['0'] then some 0
  else if s = [] then none
  else
    match goLoop s 0 with
    | none => none
    | some d =>
      if neg then
        some (if d = 9223372036854775808 then -(9223372036854775808 : Int)
              else -(d : Int))
      else if d > 9223372036854775807 then none
      else some (d : Int)

/-- Entry of Go `time.ParseDuration`: consume the optional sign, then
`goParseTail` (the empty string fails inside the tail, as in Go). -/
def goParseDuration (s0 : List Char) : Option Int :=
  match s0 with
  | [] => goParseTail false []
  | c :: rest =>
    if c = '-' ∨ c = '+' then goParseTail (c = '-') rest
    else goParseTail false (c :: rest)

/-- Go `unicode.IsSpace`, the predicate `strings.Fields` splits on: the
full Unicode `White_Space` set. -/
def isGoSpace (c : Char) : Bool :=
  c = '\t' || c = '\n' || c = Char.ofNat 0x0B || c = Char.ofNat 0x0C ||
  c = '\r' || c = ' ' || c = Char.ofNat 0x85 || c = Char.ofNat 0xA0 ||
  c = Char.ofNat 0x1680 ||
  (Char.ofNat 0x2000 ≤ c && c ≤ Char.ofNat 0x200A) ||
  c = Char.ofNat 0x2028 || c = Char.ofNat 0x2029 ||
  c = Char.ofNat 0x202F || c = Char.ofNat 0x205F || c = Char.ofNat 0x3000

theorem dropWhile_length_le {α : Type} (p : α → Bool) (l : List α) :
    (l.dropWhile p).length ≤ l.length := by
  induction l with
  | nil => simp
  | cons c rest ih =>
    rw [List.dropWhile_cons]
    split
    · exact le_trans ih (Nat.le_succ _)
    · simp

/-- Recursion core of `fields`, structurally on a fuel that is always at
least the input length. -/
def fieldsFuel : Nat → List Char → List (List Char)
  | _, [] => []
  | 0, _ :: _ => []
  | n + 1, c :: rest =>
    if isGoSpace c then fieldsFuel n rest
    else (c :: rest.takeWhile (fun d => !(isGoSpace d))) ::
         fieldsFuel n (rest.dropWhile (fun d => !(isGoSpace d)))

/-- Go `strings.Fields`: the whitespace-separated tokens of a string, with
no empty tokens. -/
def fields (s : List Char) : List (List Char) := fieldsFuel s.length s

/-- The class `\s` of Go's `regexp` package (RE2's Perl class): `[\t\n\f\r ]`. -/
def isRegexSpace (c : Char) : Bool :=
  c = '\t' || c = '\n' || c = Char.ofNat 0x0C || c = '\r' || c = ' '

/-- The class `[a-zA-Z]`. -/
def isAsciiAlpha (c : Char) : Bool :=
  ('a' ≤ c && c ≤ 'z') || ('A' ≤ c && c ≤ 'Z')

/-- The source's regex (digits-or-dots, then `\s*`, then `[a-zA-Z]+`, anchored at both ends) applied
via `FindStringSubmatch`: because the three character classes are
pairwise disjoint, the regex matches exactly when the string is a
nonempty run of digits/dots, then a run of `\s`, then a nonempty run of
ASCII letters reaching the end; the two submatches are those outer
runs. -/
def reMatch (s : List Char) : Option (List Char × List Char) :=
  if s.takeWhile isDigitDot = [] then none
  else
    if ((s.dropWhile isDigitDot).dropWhile isRegexSpace ≠ [] ∧
        ((s.dropWhile isDigitDot).dropWhile isRegexSpace).all isAsciiAlpha) then
      some (s.takeWhile isDigitDot,
            (s.dropWhile isDigitDot).dropWhile isRegexSpace)
    else none

/-- The numeric value of a digit string (most significant first). -/
def natVal (s : List Char) : Nat :=
  s.foldl (fun a c => a * 10 + digitVal c) 0

/-- The exact rational value of a digits-and-dots string with at most
one dot: integer part `ip` and fraction digits `fp` denote
`(ip * 10^len(fp) + fp) / 10^len(fp)` (built with `mkRat` so that it
evaluates). -/
def ratVal (s : List Char) : ℚ :=
  mkRat
    ((natVal (s.takeWhile (fun c => c ≠ '.')) *
        10 ^ ((s.dropWhile (fun c => c ≠ '.')).drop 1).length +
      natVal ((s.dropWhile (fun c => c ≠ '.')).drop 1) : Nat) : Int)
    (10 ^ ((s.dropWhile (fun c => c ≠ '.')).drop 1).length)

/-- The overflow threshold of `strconv.ParseFloat` for a `float64`:
decimal values at or above `2^1024 - 2^970` round to infinity, and
`ParseFloat` then returns a non-nil `ErrRange` (which the source turns
into its value-parse error); strictly below it the result is a finite
correctly-rounded double with a nil error.  (Underflow of tiny fraction
strings is not an error in Go: it yields 0 or a denormal, consistently
with the exact-rational model after the final truncation.) -/
def floatMaxBound : ℚ := ((2 ^ 1024 - 2 ^ 970 : Nat) : ℚ)

/-- Go `strconv.ParseFloat(valueStr, 64)` on the only inputs the source can
feed it (submatch 1 of the regex, hence a nonempty string of digits and
dots): it succeeds exactly when the string has at least one digit, at
most one dot, and a value below the `float64` overflow threshold (else
`ErrRange`), and returns the correctly-rounded `float64` of the decimal
value — modelled as the exact rational value (they agree whenever the
value is exactly representable, in particular on every integer below
`2^53`). -/
def parseFloat (s : List Char) : Option ℚ :=
  if s.all isDigitDot ∧ s.count '.' ≤ 1 ∧
      0 < s.countP (fun c => isDigitC c) ∧ ratVal s < floatMaxBound
  then some (ratVal s)
  else none

/-- Go `strings.ToLower`, restricted to its behaviour on ASCII: the source
only applies it to regex submatch 2, which `[a-zA-Z]+` guarantees is
ASCII, where Unicode and ASCII lowering agree. -/
def asciiLower (c : Char) : Char :=
  if 'A' ≤ c ∧ c ≤ 'Z' then Char.ofNat (c.toNat + 32) else c

/-- Go `strings.ToLower` on a (reachably ASCII) string. -/
def toLowerL (s : List Char) : List Char := s.map asciiLower

/-- The parse errors `ParseDuration` can return: the three `fmt.Errorf`
calls of the source (Go stdlib errors are swallowed, never returned). -/
inductive PErr where
  | unsupported (part : List Char)
  | badValue (valueStr : List Char)
  | unknownUnit (unit : List Char)
deriving DecidableEq, Repr

/-- The `switch unit` of the source, as the nanosecond factor each case
multiplies `value` by; the `"d"` cases multiply by `24` and then by
`float64(time.Hour)`, an exact product either way.  The second entry of
the microseconds case is the source's mis-encoded `µ` literal
(`Â` `µ` `s`). -/
def unitSwitch (u : List Char) : Option ℚ :=
  if u = "ns".data ∨ u = "nanosecond".data ∨ u = "nanoseconds".data then
    some 1
  else if u = "us".data ∨ u = [hatA, muChar, 's'] ∨
      u = "microsecond".data ∨ u = "microseconds".data then
    some 1000
  else if u = "ms".data ∨ u = "millisecond".data ∨
      u = "milliseconds".data then
    some 1000000
  else if u = "s".data ∨ u = "sec".data ∨ u = "second".data ∨
      u = "seconds".data then
    some 1000000000
  else if u = "m".data ∨ u = "min".data ∨ u = "minute".data ∨
      u = "minutes".data then
    some 60000000000
  else if u = "h".data ∨ u = "hr".data ∨ u = "hour".data ∨
      u = "hours".data then
    some 3600000000000
  else if u = "d".data ∨ u = "day".data ∨ u = "days".data then
    some (24 * 3600000000000)
  else none

/-- Go `time.Duration(x)` for the nonnegative `float64` products of the
fallback branch: conversion truncates toward zero, which is `floor` on
the nonnegative rationals that reach it. -/
def ratTrunc (q : ℚ) : Int := ⌊q⌋

/-- The body of the `for _, part := range parts` loop of `ParseDuration`
for a single part: retry `time.ParseDuration`, then the regex fallback
with `strconv.ParseFloat` and the unit switch. -/
def parsePart (p : List Char) : Except PErr Int :=
  match goParseDuration p with
  | some d => Except.ok d
  | none =>
    match reMatch p with
    | none => Except.error (PErr.unsupported p)
    | some (valueStr, unitStr) =>
      match parseFloat valueStr with
      | none => Except.error (PErr.badValue valueStr)
      | some value =>
        match unitSwitch (toLowerL unitStr) with
        | none => Except.error (PErr.unknownUnit (toLowerL unitStr))
        | some factor => Except.ok (ratTrunc (value * factor))

/-- The accumulation over the parts: `totalDuration += partDuration`,
with the source's early `return 0, err` on the first failing part. -/
def partsLoop : List (List Char) → Int → Int × Option PErr
  | [], acc => (acc, none)
  | p :: ps, acc =>
    match parsePart p with
    | Except.ok d => partsLoop ps (acc + d)
    | Except.error e => (0, some e)

/-- The function `ParseDuration` of src/nfu.go on a char list, returning the Go pair
`(time.Duration, error)`: first the whole string through
`time.ParseDuration`, then the `strings.Fields` split with the per-part
fallback. -/
def ParseDurationL (s : List Char) : Int × Option PErr :=
  match goParseDuration s with
  | some d => (d, none)
  | none => partsLoop (fields s) 0

/-- The function `ParseDuration` on a Lean string. -/
def ParseDuration (s : String) : Int × Option PErr := ParseDurationL s.data

/-- The fatal errors of `calculateTotalDuration` (I/O is not modelled;
the file is taken as its list of scanned lines, so the header error is
exactly the empty-file case). -/
inductive AggErr where
  | missingHeader
  | noDurationColumn
deriving DecidableEq, Repr

/-- Go `strings.Split(line, "\t")`: the tab-separated fields, empties
kept; never the empty list. -/
def splitTab : List Char → List (List Char)
  | [] => [[]]
  | c :: rest =>
    match splitTab rest with
    | [] => [[]]
    | w :: ws => if c = '\t' then [] :: w :: ws else (c :: w) :: ws

/-- The header column name the aggregator looks for. -/
def tDuration : List Char := "duration".data

/-- The data-row loop of `calculateTotalDuration`: short rows are
skipped, rows whose duration field fails to parse produce a warning
(modelled as the pair the `fmt.Printf` would print: the raw field text
and the error) and are skipped, parsed rows are accumulated. -/
def processRows (idx : Nat) : List (List Char) → Int → Int × List (List Char × PErr)
  | [], acc => (acc, [])
  | line :: rest, acc =>
    if (splitTab line).length ≤ idx then processRows idx rest acc
    else
      match ParseDurationL ((splitTab line).getD idx []) with
      | (d, none) => processRows idx rest (acc + d)
      | (_, some e) =>
        ((processRows idx rest acc).1,
         ((splitTab line).getD idx [], e) :: (processRows idx rest acc).2)

/-- The function `calculateTotalDuration` of src/nfu.go on the scanned lines of the
file: header split on tab, first `"duration"` column located, then the
row loop.  Returns the Go pair `(total, error)` together with the list
of warnings the run would print. -/
def calculateTotalDurationL (lines : List (List Char)) :
    Int × List (List Char × PErr) × Option AggErr :=
  match lines with
  | [] => (0, [], some AggErr.missingHeader)
  | header :: rows =>
    match (splitTab header).findIdx? (fun col => col = tDuration) with
    | none => (0, [], some AggErr.noDurationColumn)
    | some idx => ((processRows idx rows 0).1, (processRows idx rows 0).2, none)

/-- The function `calculateTotalDuration` on Lean strings. -/
def calculateTotalDuration (lines : List String) :
    Int × List (List Char × PErr) × Option AggErr :=
  calculateTotalDurationL (lines.map String.data)

/-- The duration a single part contributes (0 when it fails; on failure
the loop aborts, so the 0 is never added). -/
def partVal (p : List Char) : Int :=
  match parsePart p with
  | Except.ok d => d
  | Except.error _ => 0

/-- The contribution of one data row to the total: `some d` exactly when
the row is long enough and its duration field parses. -/
def rowVal (idx : Nat) (line : List Char) : Option Int :=
  if (splitTab line).length ≤ idx then none
  else
    match ParseDurationL ((splitTab line).getD idx []) with
    | (d, none) => some d
    | (_, some _) => none

/-- The warning a data row produces: `some` exactly when the row is long
enough and its duration field fails to parse. -/
def rowWarn (idx : Nat) (line : List Char) : Option (List Char × PErr) :=
  if (splitTab line).length ≤ idx then none
  else
    match ParseDurationL ((splitTab line).getD idx []) with
    | (_, none) => none
    | (_, some e) => some ((splitTab line).getD idx [], e)

/-! ### Character-class facts, via code points -/

theorem char_eq_iff {a b : Char} : a = b ↔ a.toNat = b.toNat :=
  ⟨fun h => by rw [h], fun h => Char.ext (UInt32.ext h)⟩

theorem isDigitC_iff {c : Char} :
    isDigitC c = true ↔ 48 ≤ c.toNat ∧ c.toNat ≤ 57 := by
  simp only [isDigitC, Bool.and_eq_true, decide_eq_true_eq]
  exact Iff.rfl

theorem isDigitDot_iff {c : Char} :
    isDigitDot c = true ↔ c.toNat = 46 ∨ (48 ≤ c.toNat ∧ c.toNat ≤ 57) := by
  simp only [isDigitDot, Bool.or_eq_true, decide_eq_true_eq, isDigitC_iff,
    char_eq_iff]
  exact Iff.rfl

theorem char_le_iff {a b : Char} : a ≤ b ↔ a.toNat ≤ b.toNat := Iff.rfl

theorem isGoSpace_iff {c : Char} : isGoSpace c = true ↔
    (c.toNat = 9 ∨ c.toNat = 10 ∨ c.toNat = 11 ∨ c.toNat = 12 ∨
     c.toNat = 13 ∨ c.toNat = 32 ∨ c.toNat = 133 ∨ c.toNat = 160 ∨
     c.toNat = 5760 ∨ (8192 ≤ c.toNat ∧ c.toNat ≤ 8202) ∨
     c.toNat = 8232 ∨ c.toNat = 8233 ∨ c.toNat = 8239 ∨
     c.toNat = 8287 ∨ c.toNat = 12288) := by
  simp only [isGoSpace, Bool.or_eq_true, Bool.and_eq_true,
    decide_eq_true_eq, char_eq_iff, char_le_iff,
    show ('\t' : Char).toNat = 9 from rfl,
    show ('\n' : Char).toNat = 10 from rfl,
    show (Char.ofNat 0x0B).toNat = 11 from rfl,
    show (Char.ofNat 0x0C).toNat = 12 from rfl,
    show ('\r' : Char).toNat = 13 from rfl,
    show (' ' : Char).toNat = 32 from rfl,
    show (Char.ofNat 0x85).toNat = 133 from rfl,
    show (Char.ofNat 0xA0).toNat = 160 from rfl,
    show (Char.ofNat 0x1680).toNat = 5760 from rfl,
    show (Char.ofNat 0x2000).toNat = 8192 from rfl,
    show (Char.ofNat 0x200A).toNat = 8202 from rfl,
    show (Char.ofNat 0x2028).toNat = 8232 from rfl,
    show (Char.ofNat 0x2029).toNat = 8233 from rfl,
    show (Char.ofNat 0x202F).toNat = 8239 from rfl,
    show (Char.ofNat 0x205F).toNat = 8287 from rfl,
    show (Char.ofNat 0x3000).toNat = 12288 from rfl]
  tauto

theorem isAsciiAlpha_iff {c : Char} : isAsciiAlpha c = true ↔
    ((97 ≤ c.toNat ∧ c.toNat ≤ 122) ∨ (65 ≤ c.toNat ∧ c.toNat ≤ 90)) := by
  simp only [isAsciiAlpha, Bool.or_eq_true, Bool.and_eq_true,
    decide_eq_true_eq]
  exact Iff.rfl

theorem isRegexSpace_iff {c : Char} : isRegexSpace c = true ↔
    (c.toNat = 9 ∨ c.toNat = 10 ∨ c.toNat = 12 ∨ c.toNat = 13 ∨
     c.toNat = 32) := by
  simp only [isRegexSpace, Bool.or_eq_true, decide_eq_true_eq, char_eq_iff,
    show ('\t' : Char).toNat = 9 from rfl,
    show ('\n' : Char).toNat = 10 from rfl,
    show (Char.ofNat 0x0C).toNat = 12 from rfl,
    show ('\r' : Char).toNat = 13 from rfl,
    show (' ' : Char).toNat = 32 from rfl]
  tauto

theorem isGoSpace_not_digitDot {c : Char} (h : isGoSpace c = true) :
    isDigitDot c = false := by
  rw [isGoSpace_iff] at h
  rw [Bool.eq_false_iff]
  intro hd
  rw [isDigitDot_iff] at hd
  omega

theorem isGoSpace_not_digitC {c : Char} (h : isGoSpace c = true) :
    isDigitC c = false := by
  rw [isGoSpace_iff] at h
  rw [Bool.eq_false_iff]
  intro hd
  rw [isDigitC_iff] at hd
  omega

theorem isDigitC_isDigitDot {c : Char} (h : isDigitC c = true) :
    isDigitDot c = true := by
  simp [isDigitDot, h]

theorem isDigitDot_not_space {c : Char} (h : isDigitDot c = true) :
    isGoSpace c = false := by
  rw [isDigitDot_iff] at h
  rw [Bool.eq_false_iff]
  intro hs
  rw [isGoSpace_iff] at hs
  omega

theorem isDigitDot_not_sign {c : Char} (h : isDigitDot c = true) :
    ¬(c = '-' ∨ c = '+') := by
  rw [isDigitDot_iff] at h
  rintro (rfl | rfl) <;> revert h <;> decide

theorem isAsciiAlpha_not_digitDot {c : Char} (h : isAsciiAlpha c = true) :
    isDigitDot c = false := by
  rw [isAsciiAlpha_iff] at h
  rw [Bool.eq_false_iff]
  intro hd
  rw [isDigitDot_iff] at hd
  omega

theorem isAsciiAlpha_isUnitChar {c : Char} (h : isAsciiAlpha c = true) :
    isUnitChar c = true := by
  simp [isUnitChar, isAsciiAlpha_not_digitDot h]

theorem isAsciiAlpha_not_space {c : Char} (h : isAsciiAlpha c = true) :
    isGoSpace c = false := by
  rw [isAsciiAlpha_iff] at h
  rw [Bool.eq_false_iff]
  intro hs
  rw [isGoSpace_iff] at hs
  omega

theorem isAsciiAlpha_not_regexSpace {c : Char} (h : isAsciiAlpha c = true) :
    isRegexSpace c = false := by
  rw [isAsciiAlpha_iff] at h
  rw [Bool.eq_false_iff]
  intro hs
  rw [isRegexSpace_iff] at hs
  omega

theorem isAsciiAlpha_not_sign {c : Char} (h : isAsciiAlpha c = true) :
    ¬(c = '-' ∨ c = '+') := by
  rw [isAsciiAlpha_iff] at h
  rintro (rfl | rfl) <;> revert h <;> decide

theorem unitMap_none_of_space {u : List Char} {c : Char} (hc : c ∈ u)
    (hs : isGoSpace c = true) : unitMap u = none := by
  rw [isGoSpace_iff] at hs
  rw [unitMap]
  split_ifs with h1 h2 h3 h4 h5 h6 h7 h8
  all_goals first
    | rfl
    | (exfalso
       subst_vars
       simp only [List.mem_cons, List.not_mem_nil, or_false] at hc
       rcases hc with rfl | rfl <;> revert hs <;> decide)

/-! ### List scanning helpers -/

theorem takeWhile_append_all {p : Char → Bool} {A : List Char}
    (h : ∀ c ∈ A, p c = true) (B : List Char) :
    (A ++ B).takeWhile p = A ++ B.takeWhile p := by
  induction A with
  | nil => simp
  | cons a A ih =>
    rw [List.cons_append, List.takeWhile_cons_of_pos (h a (by simp)),
      ih (fun c hc => h c (by simp [hc])), List.cons_append]

theorem dropWhile_append_all {p : Char → Bool} {A : List Char}
    (h : ∀ c ∈ A, p c = true) (B : List Char) :
    (A ++ B).dropWhile p = B.dropWhile p := by
  induction A with
  | nil => simp
  | cons a A ih =>
    rw [List.cons_append, List.dropWhile_cons_of_pos (h a (by simp)),
      ih (fun c hc => h c (by simp [hc]))]

theorem takeWhile_eq_nil_of_head {p : Char → Bool} {b : Char} {B : List Char}
    (h : p b = false) : (b :: B).takeWhile p = [] := by
  rw [List.takeWhile_cons_of_neg (by simp [h])]

theorem dropWhile_eq_self_of_head {p : Char → Bool} {b : Char} {B : List Char}
    (h : p b = false) : (b :: B).dropWhile p = b :: B := by
  rw [List.dropWhile_cons_of_neg (by simp [h])]

/-- Aligning two decompositions of the same string: if a prefix consists
entirely of `p`-characters and `B` starts with a non-`p` character, the
prefix lies inside `A`. -/
theorem append_align {p : Char → Bool} {A B pre r : List Char}
    (heq : A ++ B = pre ++ r) (hpre : ∀ c ∈ pre, p c = true)
    {b : Char} {bs : List Char} (hB : B = b :: bs) (hb : p b = false) :
    ∃ A2, A = pre ++ A2 ∧ r = A2 ++ B := by
  induction pre generalizing A with
  | nil => exact ⟨A, by simp, by simpa using heq.symm⟩
  | cons q pre ih =>
    match A with
    | [] =>
      rw [List.nil_append, hB, List.cons_append] at heq
      have : b = q := by injection heq
      rw [← this] at hpre
      exact absurd (hpre b (by simp)) (by simp [hb])
    | a :: A =>
      rw [List.cons_append, List.cons_append] at heq
      have h1 : a = q := by injection heq
      have h2 : A ++ B = pre ++ r := by injection heq
      obtain ⟨A2, hA2, hr⟩ := ih h2 (fun c hc => hpre c (by simp [hc]))
      exact ⟨A2, by rw [h1, hA2, List.cons_append], hr⟩

/-! ### Decompositions produced by the scanners -/

theorem leadingInt_split {x : Nat} {s r : List Char} {v : Nat}
    (h : leadingInt x s = some (v, r)) :
    ∃ pre, s = pre ++ r ∧ (∀ c ∈ pre, isDigitC c = true) ∧
      (∀ b bs, r = b :: bs → isDigitC b = false) := by
  induction s generalizing x with
  | nil =>
    simp only [leadingInt, Option.some.injEq, Prod.mk.injEq] at h
    exact ⟨[], by simp [← h.2], by simp, fun b bs hb => by
      rw [← h.2] at hb; exact absurd hb (by simp)⟩
  | cons c rest ih =>
    rw [leadingInt] at h
    split at h
    · rename_i hc
      split at h
      · exact absurd h (by simp)
      · split at h
        · exact absurd h (by simp)
        · obtain ⟨pre, h1, h2, h3⟩ := ih h
          exact ⟨c :: pre, by rw [List.cons_append, h1],
            fun d hd => by
              rcases List.mem_cons.mp hd with rfl | hd
              · exact hc
              · exact h2 d hd,
            h3⟩
    · rename_i hc
      simp only [Option.some.injEq, Prod.mk.injEq] at h
      refine ⟨[], by simp [← h.2], by simp, fun b bs hb => ?_⟩
      rw [← h.2] at hb
      have hcb : c = b := by injection hb
      subst hcb
      simpa using hc

theorem leadingFraction_split (x scale : Nat) (overflow : Bool)
    (s : List Char) :
    ∃ pre, s = pre ++ (leadingFraction x scale overflow s).2.2 ∧
      (∀ c ∈ pre, isDigitC c = true) ∧
      (∀ b bs, (leadingFraction x scale overflow s).2.2 = b :: bs →
        isDigitC b = false) := by
  induction s generalizing x scale overflow with
  | nil =>
    exact ⟨[], by simp [leadingFraction], by simp,
      fun b bs hb => by simp [leadingFraction] at hb⟩
  | cons c rest ih =>
    rw [leadingFraction]
    split
    · rename_i hc
      split
      · obtain ⟨pre, h1, h2, h3⟩ := ih x scale overflow
        exact ⟨c :: pre, by rw [List.cons_append, ← h1],
          fun d hd => by
            rcases List.mem_cons.mp hd with rfl | hd
            · exact hc
            · exact h2 d hd, h3⟩
      · split
        · obtain ⟨pre, h1, h2, h3⟩ := ih x scale true
          exact ⟨c :: pre, by rw [List.cons_append, ← h1],
            fun d hd => by
              rcases List.mem_cons.mp hd with rfl | hd
              · exact hc
              · exact h2 d hd, h3⟩
        · split
          · obtain ⟨pre, h1, h2, h3⟩ := ih x scale true
            exact ⟨c :: pre, by rw [List.cons_append, ← h1],
              fun d hd => by
                rcases List.mem_cons.mp hd with rfl | hd
                · exact hc
                · exact h2 d hd, h3⟩
          · obtain ⟨pre, h1, h2, h3⟩ :=
              ih (x * 10 + digitVal c) (scale * 10) false
            exact ⟨c :: pre, by rw [List.cons_append, ← h1],
              fun d hd => by
                rcases List.mem_cons.mp hd with rfl | hd
                · exact hc
                · exact h2 d hd, h3⟩
    · rename_i hc
      exact ⟨[], by simp, by simp, fun b bs hb => by
        have hcb : c = b := by injection hb
        subst hcb
        simpa using hc⟩

theorem fracStep_split (s1 : List Char)
    (hhead : ∀ b bs, s1 = b :: bs → isDigitC b = false) :
    ∃ pre, s1 = pre ++ (fracStep s1).2.2.1 ∧
      (∀ c ∈ pre, isDigitDot c = true) ∧
      (∀ b bs, (fracStep s1).2.2.1 = b :: bs → isDigitC b = false) := by
  match s1 with
  | [] => exact ⟨[], by simp [fracStep], by simp,
      fun b bs hb => by simp [fracStep] at hb⟩
  | c :: r =>
    rw [fracStep]
    split
    · rename_i hc
      obtain ⟨pre, h1, h2, h3⟩ := leadingFraction_split 0 1 false r
      refine ⟨c :: pre, by rw [List.cons_append, ← h1], ?_, h3⟩
      intro d hd
      rcases List.mem_cons.mp hd with rfl | hd
      · simp [isDigitDot, hc]
      · exact isDigitC_isDigitDot (h2 d hd)
    · exact ⟨[], by simp, by simp, hhead⟩

/-! ### Behaviour of the embedded `time.ParseDuration` -/

theorem unitMap_pos {u : List Char} {k : Nat} (h : unitMap u = some k) :
    0 < k := by
  rw [unitMap] at h
  split_ifs at h <;> simp only [Option.some.injEq] at h <;> omega

theorem isUnitChar_not_digitC {c : Char} (h : isUnitChar c = true) :
    isDigitC c = false := by
  simp only [isUnitChar, Bool.not_eq_eq_eq_not, Bool.not_true,
    isDigitDot, Bool.or_eq_false_iff] at h
  exact h.2

theorem isUnitChar_not_dot {c : Char} (h : isUnitChar c = true) :
    c ≠ '.' := by
  intro hc
  subst hc
  exact absurd h (by decide)

theorem isUnitChar_not_digitDot {c : Char} (h : isUnitChar c = true) :
    isDigitDot c = false := by
  simp only [isUnitChar, Bool.not_eq_eq_eq_not, Bool.not_true] at h
  exact h

/-- On a nonempty string of digits and dots the segment parser always
fails: the unit scan comes up empty. -/
theorem goSegment_none_of_digitDot {s : List Char} (hne : s ≠ [])
    (hall : ∀ c ∈ s, isDigitDot c = true) : goSegment s = none := by
  match s with
  | [] => exact absurd rfl hne
  | c :: rest =>
    rw [goSegment]
    have hc := hall c (List.mem_cons_self c rest)
    rw [if_neg (by simp [hc])]
    rcases hli : leadingInt 0 (c :: rest) with _ | ⟨v, s1⟩
    · rfl
    · obtain ⟨pre, heq, hpredig, hhead⟩ := leadingInt_split hli
      have hs1all : ∀ d ∈ s1, isDigitDot d = true := fun d hd =>
        hall d (heq ▸ List.mem_append_right pre hd)
      obtain ⟨pre2, heq2, _, hhead2⟩ := fracStep_split s1 hhead
      have hs2all : ∀ d ∈ (fracStep s1).2.2.1, isDigitDot d = true :=
        fun d hd => hs1all d (heq2 ▸ List.mem_append_right pre2 hd)
      simp only
      split
      · rfl
      · rw [if_pos]
        match hs2 : (fracStep s1).2.2.1 with
        | [] => rfl
        | b :: bs =>
          have hb1 : isDigitDot b = true := hs2all b (by rw [hs2]; simp)
          have hb2 : isDigitC b = false := hhead2 b bs hs2
          apply takeWhile_eq_nil_of_head
          simp [isUnitChar, hb1]

/-- The loop `goLoop` on a nonempty string of digits and dots fails at once. -/
theorem goLoop_none_of_digitDot {s : List Char} (hne : s ≠ [])
    (hall : ∀ c ∈ s, isDigitDot c = true) (d : Nat) : goLoop s d = none := by
  match s with
  | [] => exact absurd rfl hne
  | c :: rest =>
    rw [goLoop_cons]
    split
    · rfl
    · rename_i v r heq
      rw [goSegment_none_of_digitDot (List.cons_ne_nil c rest) hall] at heq
      exact absurd heq (by simp)

/-- Go `time.ParseDuration` fails on every nonempty digits-and-dots
string other than the special case `"0"`. -/
theorem goParseDuration_none_of_digitDot {s : List Char} (hne : s ≠ [])
    (hall : ∀ c ∈ s, isDigitDot c = true) (h0 : s ≠ ['0']) :
    goParseDuration s = none := by
  match s with
  | [] => exact absurd rfl hne
  | c :: rest =>
    rw [goParseDuration]
    rw [if_neg (isDigitDot_not_sign (hall c (List.mem_cons_self c rest)))]
    rw [goParseTail, if_neg h0, if_neg hne]
    rw [goLoop_none_of_digitDot hne hall 0]

/-- When the input is digits-and-dots followed by a nonempty unit whose
lookup fails, the segment parser fails. -/
theorem goSegment_unit_fail {A B : List Char} (hA : A ≠ [])
    (hAall : ∀ c ∈ A, isDigitDot c = true) {b : Char} {bs : List Char}
    (hB : B = b :: bs) (hBall : ∀ c ∈ B, isUnitChar c = true)
    (hBmap : unitMap B = none) : goSegment (A ++ B) = none := by
  have hbU : isUnitChar b = true := hBall b (hB ▸ List.mem_cons_self b bs)
  have hbD : isDigitC b = false := isUnitChar_not_digitC hbU
  match hAm : A with
  | [] => exact absurd rfl hA
  | a :: A1 =>
    rw [List.cons_append, goSegment]
    have ha := hAall a (List.mem_cons_self a A1)
    rw [if_neg (by simp [ha])]
    rcases hli : leadingInt 0 (a :: (A1 ++ B)) with _ | ⟨v, s1⟩
    · rfl
    · obtain ⟨pre, heq, hpredig, hhead⟩ := leadingInt_split hli
      rw [← List.cons_append] at heq
      obtain ⟨A2, hA2, hs1⟩ := append_align heq
        (fun c hc => isDigitC_isDigitDot (hpredig c hc)) hB
        (by simp [isDigitDot, hbD, isUnitChar_not_dot hbU])
      obtain ⟨pre2, heq2, hpre2, hhead2⟩ := fracStep_split s1 hhead
      have hx2 : A2 ++ B = pre2 ++ (fracStep s1).2.2.1 := by
        rw [← hs1]; exact heq2
      obtain ⟨A3, hA3, hs2⟩ := append_align hx2 hpre2 hB
        (isUnitChar_not_digitDot hbU)
      simp only
      split
      · rfl
      · rw [hs2]
        match hA3m : A3 with
        | [] =>
          rw [List.nil_append]
          rw [List.takeWhile_eq_self_iff.mpr hBall]
          rw [if_neg (hB ▸ List.cons_ne_nil b bs)]
          rw [hBmap]
        | x :: xs =>
          rw [if_pos]
          have hx : isDigitC x = false := by
            apply hhead2 x (xs ++ B)
            rw [hs2, List.cons_append]
          have hxdd : isDigitDot x = true := by
            apply hAall
            rw [hA2, hA3]
            exact List.mem_append_right pre
              (List.mem_append_right pre2 (List.mem_cons_self x xs))
          rw [List.cons_append]
          apply takeWhile_eq_nil_of_head
          simp [isUnitChar, hxdd]

/-- Go `time.ParseDuration` fails on digits-and-dots followed by a unit
its `unitMap` does not know. -/
theorem goParseDuration_unit_fail {A B : List Char} (hA : A ≠ [])
    (hAall : ∀ c ∈ A, isDigitDot c = true) (hBne : B ≠ [])
    (hBall : ∀ c ∈ B, isUnitChar c = true) (hBmap : unitMap B = none) :
    goParseDuration (A ++ B) = none := by
  match A, B with
  | a :: A1, b :: bs =>
    rw [List.cons_append, goParseDuration]
    rw [if_neg (isDigitDot_not_sign (hAall a (List.mem_cons_self a A1)))]
    rw [goParseTail]
    rw [if_neg (by
      intro h
      have : (A1 ++ b :: bs : List Char) = [] := by injection h
      exact absurd (List.append_eq_nil.mp this).2 (List.cons_ne_nil b bs))]
    rw [if_neg (List.cons_ne_nil a (A1 ++ b :: bs))]
    have hgs : goSegment (a :: (A1 ++ b :: bs)) = none := by
      rw [← List.cons_append]
      exact goSegment_unit_fail (List.cons_ne_nil a A1) hAall rfl hBall hBmap
    rw [goLoop_cons]
    split
    · rfl
    · rename_i v r heq
      rw [hgs] at heq
      exact absurd heq (by simp)
  | [], _ => exact absurd rfl hA
  | _ :: _, [] => exact absurd rfl hBne

theorem le_foldl_digits (ds : List Char) (x : Nat) :
    x ≤ ds.foldl (fun a c => a * 10 + digitVal c) x := by
  induction ds generalizing x with
  | nil => simp
  | cons c ds ih =>
    rw [List.foldl_cons]
    exact le_trans (by omega) (ih (x * 10 + digitVal c))

/-- The scanner `leadingInt` consumes exactly a digit prefix and computes its value,
provided the value respects the `uint64` guards. -/
theorem leadingInt_digits {ds rest : List Char} (x : Nat)
    (hall : ∀ c ∈ ds, isDigitC c = true)
    (hrest : rest = [] ∨ ∃ b bs, rest = b :: bs ∧ isDigitC b = false)
    (hb : ds.foldl (fun a c => a * 10 + digitVal c) x ≤ 9223372036854775808) :
    leadingInt x (ds ++ rest) =
      some (ds.foldl (fun a c => a * 10 + digitVal c) x, rest) := by
  induction ds generalizing x with
  | nil =>
    rcases hrest with rfl | ⟨b, bs, rfl, hbD⟩
    · simp [leadingInt]
    · simp [leadingInt, hbD]
  | cons c ds ih =>
    rw [List.cons_append, leadingInt,
      if_pos (hall c (List.mem_cons_self c ds))]
    rw [List.foldl_cons] at hb
    have hge := le_foldl_digits ds (x * 10 + digitVal c)
    rw [if_neg (by omega), if_neg (by omega)]
    rw [ih (x * 10 + digitVal c) (fun d hd => hall d (by simp [hd])) hb]
    rw [List.foldl_cons]

/-- The segment parser on a pure digit string followed by a known unit
suffix computes exactly `value * unit`. -/
theorem goSegment_digits_unit {ds u : List Char} {k : Nat} (hds : ds ≠ [])
    (hall : ∀ c ∈ ds, isDigitC c = true) (hu : u ≠ [])
    (huall : ∀ c ∈ u, isUnitChar c = true) (hmap : unitMap u = some k)
    (hbound : natVal ds * k ≤ 9223372036854775808) :
    goSegment (ds ++ u) = some (natVal ds * k, []) := by
  have hkpos : 0 < k := unitMap_pos hmap
  have hvb : natVal ds ≤ 9223372036854775808 := by
    calc natVal ds = natVal ds * 1 := by omega
    _ ≤ natVal ds * k := Nat.mul_le_mul_left _ hkpos
    _ ≤ _ := hbound
  match ds, u with
  | d :: ds1, b :: bs =>
    have hd := hall d (List.mem_cons_self d ds1)
    have hbU := huall b (List.mem_cons_self b bs)
    rw [List.cons_append, goSegment]
    rw [if_neg (by simp [isDigitDot, hd])]
    have hli : leadingInt 0 ((d :: ds1) ++ (b :: bs)) =
        some (natVal (d :: ds1), b :: bs) := by
      apply leadingInt_digits 0 hall
      · exact Or.inr ⟨b, bs, rfl, isUnitChar_not_digitC hbU⟩
      · exact hvb
    rw [List.cons_append] at hli
    rw [hli]
    simp only
    have hfrac : fracStep (b :: bs) = (0, 1, b :: bs, false) := by
      rw [fracStep, if_neg (isUnitChar_not_dot hbU)]
    rw [if_neg (by
      rw [hfrac]
      simp only [List.length_cons, List.length_append, not_and]
      intro hlen
      exfalso
      omega)]
    rw [hfrac]
    simp only
    rw [List.takeWhile_eq_self_iff.mpr huall]
    rw [if_neg (List.cons_ne_nil b bs)]
    rw [hmap]
    simp only
    rw [if_neg (Nat.not_lt.mpr ((Nat.le_div_iff_mul_le hkpos).mpr hbound))]
    have hseg : segVal (natVal (d :: ds1)) k
        ((0, 1, b :: bs, false) : Nat × Nat × List Char × Bool) =
        natVal (d :: ds1) * k := by
      rw [segVal]
      simp
    rw [hseg]
    rw [if_neg (by
      rintro ⟨h0, _⟩
      exact absurd h0 (by simp))]
    rw [List.dropWhile_eq_nil_iff.mpr huall]
  | [], _ => exact absurd rfl hds
  | _ :: _, [] => exact absurd rfl hu

/-- Go `time.ParseDuration` on a pure digit string followed by one of
its unit suffixes returns exactly `value * unit` (as long as the value
stays below the `int64` overflow checks). -/
theorem goParseDuration_digits_unit {ds u : List Char} {k : Nat}
    (hds : ds ≠ []) (hall : ∀ c ∈ ds, isDigitC c = true) (hu : u ≠ [])
    (huall : ∀ c ∈ u, isUnitChar c = true) (hmap : unitMap u = some k)
    (hbound : natVal ds * k ≤ 9223372036854775807) :
    goParseDuration (ds ++ u) = some ((natVal ds * k : Nat) : Int) := by
  match ds, u with
  | d :: ds1, b :: bs =>
    have hd := hall d (List.mem_cons_self d ds1)
    rw [List.cons_append, goParseDuration]
    rw [if_neg (isDigitDot_not_sign (isDigitC_isDigitDot hd))]
    rw [goParseTail]
    rw [if_neg (by
      intro h
      have h2 : (ds1 ++ b :: bs : List Char) = [] := by injection h
      exact absurd (List.append_eq_nil.mp h2).2 (List.cons_ne_nil b bs))]
    rw [if_neg (List.cons_ne_nil d (ds1 ++ b :: bs))]
    have hseg : goSegment (d :: (ds1 ++ b :: bs)) =
        some (natVal (d :: ds1) * k, []) := by
      rw [← List.cons_append]
      exact goSegment_digits_unit hds hall hu huall hmap (by omega)
    have hloop : goLoop (d :: (ds1 ++ b :: bs)) 0 =
        some (natVal (d :: ds1) * k) := by
      rw [goLoop_cons]
      split
      · rename_i heq
        rw [hseg] at heq
        exact absurd heq (by simp)
      · rename_i v r heq
        rw [hseg] at heq
        simp only [Option.some.injEq, Prod.mk.injEq] at heq
        obtain ⟨hv, hr⟩ := heq
        subst hv
        subst hr
        have hmod : (0 + natVal (d :: ds1) * k) % 18446744073709551616 =
            natVal (d :: ds1) * k := by
          rw [Nat.zero_add]
          exact Nat.mod_eq_of_lt (by omega)
        rw [hmod]
        rw [if_neg (by omega)]
        exact goLoop_nil _
    rw [hloop]
    simp only [Bool.false_eq_true, if_false]
    rw [if_neg (by omega)]
  | [], _ => exact absurd rfl hds
  | _ :: _, [] => exact absurd rfl hu

/-- A successful segment decomposes the input into a digit run, a
digits-and-dots run, a unit known to `unitMap`, and the remainder. -/
theorem goSegment_anatomy {s r : List Char} {v : Nat}
    (h : goSegment s = some (v, r)) :
    ∃ d1 d2 u, s = d1 ++ (d2 ++ (u ++ r)) ∧
      (∀ c ∈ d1, isDigitC c = true) ∧ (∀ c ∈ d2, isDigitDot c = true) ∧
      (∃ k, unitMap u = some k) := by
  match s with
  | [] => simp [goSegment] at h
  | c :: rest =>
    rw [goSegment] at h
    split at h
    · exact absurd h (by simp)
    · rcases hli : leadingInt 0 (c :: rest) with _ | ⟨v0, s1⟩
      · rw [hli] at h; exact absurd h (by simp)
      · rw [hli] at h
        simp only at h
        obtain ⟨pre, heq, hpredig, hhead⟩ := leadingInt_split hli
        obtain ⟨pre2, heq2, hpre2, _⟩ := fracStep_split s1 hhead
        split at h
        · exact absurd h (by simp)
        · split at h
          · exact absurd h (by simp)
          · rcases hum : unitMap ((fracStep s1).2.2.1.takeWhile isUnitChar)
              with _ | k
            · rw [hum] at h; exact absurd h (by simp)
            · rw [hum] at h
              simp only at h
              split at h
              · exact absurd h (by simp)
              · split at h
                · exact absurd h (by simp)
                · simp only [Option.some.injEq, Prod.mk.injEq] at h
                  refine ⟨pre, pre2,
                    (fracStep s1).2.2.1.takeWhile isUnitChar,
                    ?_, hpredig, hpre2, ⟨k, hum⟩⟩
                  have hur : (fracStep s1).2.2.1.takeWhile isUnitChar ++ r =
                      (fracStep s1).2.2.1 := by
                    rw [← h.2]
                    exact List.takeWhile_append_dropWhile _ _
                  rw [hur, ← heq2]
                  exact heq

theorem goLoop_none_of_space_aux (n : Nat) :
    ∀ (s : List Char) (d : Nat) (c : Char), s.length ≤ n → c ∈ s →
      isGoSpace c = true → goLoop s d = none := by
  induction n with
  | zero =>
    intro s d c hlen hc _
    match s with
    | [] => exact absurd hc (List.not_mem_nil c)
    | _ :: _ => simp at hlen
  | succ n ih =>
    intro s d c hlen hc hs
    match s with
    | [] => exact absurd hc (List.not_mem_nil c)
    | a :: rest =>
      rw [goLoop_cons]
      split
      · rfl
      · rename_i v r heq
        obtain ⟨d1, d2, u, hdec, hd1, hd2, k, hk⟩ := goSegment_anatomy heq
        have hc2 : c ∈ d1 ++ (d2 ++ (u ++ r)) := hdec ▸ hc
        rcases List.mem_append.mp hc2 with h1 | hc3
        · exact absurd (hd1 c h1) (by simp [isGoSpace_not_digitC hs])
        · rcases List.mem_append.mp hc3 with h2 | hc4
          · exact absurd (hd2 c h2) (by simp [isGoSpace_not_digitDot hs])
          · rcases List.mem_append.mp hc4 with h3 | h4
            · rw [unitMap_none_of_space h3 hs] at hk
              exact absurd hk (by simp)
            · split
              · rfl
              · refine ih r _ c ?_ h4 hs
                have := goSegment_rem_length heq
                simp only [List.length_cons] at this hlen
                omega

/-- Go `time.ParseDuration`'s loop fails on any string containing a
whitespace character. -/
theorem goLoop_none_of_space {s : List Char} {c : Char} (hc : c ∈ s)
    (hs : isGoSpace c = true) (d : Nat) : goLoop s d = none :=
  goLoop_none_of_space_aux s.length s d c le_rfl hc hs

/-- Go `time.ParseDuration` fails on any string containing a whitespace
character. -/
theorem goParseDuration_none_of_space {s : List Char} {c : Char}
    (hc : c ∈ s) (hs : isGoSpace c = true) : goParseDuration s = none := by
  have h0 : c ≠ '0' := by
    intro h
    subst h
    exact absurd hs (by decide)
  match s with
  | [] => exact absurd hc (List.not_mem_nil c)
  | a :: rest =>
    rw [goParseDuration]
    split
    · rename_i hsign
      have hcr : c ∈ rest := by
        rcases List.mem_cons.mp hc with rfl | h
        · rcases hsign with rfl | rfl <;> exact absurd hs (by decide)
        · exact h
      rw [goParseTail]
      rw [if_neg (by
        intro h
        rw [h] at hcr
        simp only [List.mem_singleton] at hcr
        exact h0 hcr)]
      rw [if_neg (by
        intro h
        rw [h] at hcr
        exact absurd hcr (List.not_mem_nil c))]
      rw [goLoop_none_of_space hcr hs 0]
    · rw [goParseTail]
      rw [if_neg (by
        intro h
        rw [h] at hc
        simp only [List.mem_singleton] at hc
        exact h0 hc)]
      rw [if_neg (List.cons_ne_nil a rest)]
      rw [goLoop_none_of_space hc hs 0]

/-! ### `strings.Fields` facts -/

theorem fieldsFuel_adequate : ∀ n m : Nat, ∀ s : List Char,
    s.length ≤ n → s.length ≤ m → fieldsFuel n s = fieldsFuel m s := by
  intro n
  induction n with
  | zero =>
    intro m s hn _
    match s with
    | [] => cases m <;> rfl
    | _ :: _ => simp at hn
  | succ n ih =>
    intro m s hn hm
    match s with
    | [] => cases m <;> rfl
    | c :: rest =>
      match m with
      | 0 => simp at hm
      | m + 1 =>
        rw [fieldsFuel, fieldsFuel]
        simp only [List.length_cons] at hn hm
        have hd := dropWhile_length_le (fun d => !(isGoSpace d)) rest
        split
        · exact ih m rest (by omega) (by omega)
        · rw [ih m (rest.dropWhile (fun d => !(isGoSpace d)))
            (by omega) (by omega)]

theorem fields_nil : fields [] = [] := rfl

theorem fields_cons (c : Char) (rest : List Char) :
    fields (c :: rest) =
      if isGoSpace c then fields rest
      else (c :: rest.takeWhile (fun d => !(isGoSpace d))) ::
           fields (rest.dropWhile (fun d => !(isGoSpace d))) := by
  rw [fields, List.length_cons, fieldsFuel]
  have hd := dropWhile_length_le (fun d => !(isGoSpace d)) rest
  split
  · exact fieldsFuel_adequate rest.length rest.length rest le_rfl le_rfl
  · rw [fields]
    rw [fieldsFuel_adequate rest.length
      (rest.dropWhile (fun d => !(isGoSpace d))).length
      (rest.dropWhile (fun d => !(isGoSpace d))) (by omega) le_rfl]

theorem fields_forall_aux (n : Nat) : ∀ s : List Char, s.length ≤ n →
    ∀ t ∈ fields s, t ≠ [] ∧ ∀ c ∈ t, isGoSpace c = false := by
  induction n with
  | zero =>
    intro s hlen t ht
    match s with
    | [] => rw [fields_nil] at ht; exact absurd ht (List.not_mem_nil t)
    | _ :: _ => simp at hlen
  | succ n ih =>
    intro s hlen t ht
    match s with
    | [] => rw [fields_nil] at ht; exact absurd ht (List.not_mem_nil t)
    | c :: rest =>
      rw [fields_cons] at ht
      split at ht
      · exact ih rest (by simp at hlen; omega) t ht
      · rename_i hcs
        rcases List.mem_cons.mp ht with rfl | ht2
        · refine ⟨List.cons_ne_nil _ _, ?_⟩
          intro d hd
          rcases List.mem_cons.mp hd with rfl | hd2
          · simpa using hcs
          · have := List.mem_takeWhile_imp hd2
            simpa using this
        · refine ih (rest.dropWhile (fun d => !(isGoSpace d))) ?_ t ht2
          have := dropWhile_length_le (fun d => !(isGoSpace d)) rest
          simp only [List.length_cons] at hlen
          omega

theorem fields_forall {s t : List Char} (ht : t ∈ fields s) :
    t ≠ [] ∧ ∀ c ∈ t, isGoSpace c = false :=
  fields_forall_aux s.length s le_rfl t ht

/-- A nonempty whitespace-free string is its own single token. -/
theorem fields_single {s : List Char} (hne : s ≠ [])
    (hnos : ∀ c ∈ s, isGoSpace c = false) : fields s = [s] := by
  match s with
  | [] => exact absurd rfl hne
  | c :: rest =>
    rw [fields_cons]
    rw [if_neg (by simp [hnos c (List.mem_cons_self c rest)])]
    have hall : ∀ d ∈ rest, (!(isGoSpace d)) = true := fun d hd => by
      simp [hnos d (List.mem_cons.mpr (Or.inr hd))]
    rw [List.takeWhile_eq_self_iff.mpr hall]
    rw [List.dropWhile_eq_nil_iff.mpr hall]
    rw [fields_nil]

/-- A string of whitespace has no tokens. -/
theorem fields_all_space {s : List Char}
    (h : ∀ c ∈ s, isGoSpace c = true) : fields s = [] := by
  induction s with
  | nil => rw [fields_nil]
  | cons c rest ih =>
    rw [fields_cons, if_pos (h c (List.mem_cons_self c rest))]
    exact ih fun d hd => h d (List.mem_cons.mpr (Or.inr hd))

/-- Two or more tokens force a whitespace character in the string. -/
theorem exists_space_of_fields_two {s t1 t2 : List Char}
    {ts : List (List Char)} (h : fields s = t1 :: t2 :: ts) :
    ∃ c ∈ s, isGoSpace c = true := by
  by_contra hno
  push_neg at hno
  have hno2 : ∀ c ∈ s, isGoSpace c = false := by
    intro c hc
    have := hno c hc
    simpa using this
  cases s with
  | nil => rw [fields_nil] at h; exact absurd h (by simp)
  | cons c rest =>
    rw [fields_single (List.cons_ne_nil c rest) hno2] at h
    simp at h

/-! ### The per-part loop -/

theorem partsLoop_shape (ps : List (List Char)) (acc : Int) :
    (∃ x, partsLoop ps acc = (x, none)) ∨
    (∃ e, partsLoop ps acc = (0, some e)) := by
  induction ps generalizing acc with
  | nil => exact Or.inl ⟨acc, rfl⟩
  | cons p ps ih =>
    rw [partsLoop]
    cases hp : parsePart p with
    | ok d => exact ih (acc + d)
    | error e => exact Or.inr ⟨e, rfl⟩

theorem partsLoop_ok (ps : List (List Char)) (acc : Int)
    (h : ∀ p ∈ ps, parsePart p = Except.ok (partVal p)) :
    partsLoop ps acc = (acc + (ps.map partVal).sum, none) := by
  induction ps generalizing acc with
  | nil => simp [partsLoop]
  | cons p ps ih =>
    rw [partsLoop]
    simp only [h p (List.mem_cons_self p ps)]
    rw [ih (acc + partVal p) (fun q hq => h q (List.mem_cons.mpr (Or.inr hq)))]
    simp [add_assoc]

theorem partsLoop_err (pre : List (List Char)) (p : List Char)
    (post : List (List Char)) (acc : Int) (e : PErr)
    (hpre : ∀ q ∈ pre, parsePart q = Except.ok (partVal q))
    (hp : parsePart p = Except.error e) :
    partsLoop (pre ++ p :: post) acc = (0, some e) := by
  induction pre generalizing acc with
  | nil =>
    rw [List.nil_append, partsLoop]
    simp only [hp]
  | cons q pre ih =>
    rw [List.cons_append, partsLoop]
    simp only [hpre q (List.mem_cons_self q pre)]
    exact ih (acc + partVal q)
      (fun q' hq' => hpre q' (List.mem_cons.mpr (Or.inr hq')))

/-- On a nonempty whitespace-free token, the full `ParseDuration` is the
single-part computation. -/
theorem ParseDurationL_token {t : List Char} (hne : t ≠ [])
    (hnos : ∀ c ∈ t, isGoSpace c = false) :
    ParseDurationL t =
      (match parsePart t with
       | Except.ok d => (d, none)
       | Except.error e => (0, some e)) := by
  rw [ParseDurationL]
  cases hgo : goParseDuration t with
  | some d =>
    have hp : parsePart t = Except.ok d := by rw [parsePart, hgo]
    rw [hp]
  | none =>
    rw [fields_single hne hnos, partsLoop]
    cases hp : parsePart t with
    | ok d =>
      show ((0 : Int) + d, (none : Option PErr)) = (d, none)
      rw [Int.zero_add]
    | error e => rfl

theorem parsePart_ok_of_token {t : List Char} (hne : t ≠ [])
    (hnos : ∀ c ∈ t, isGoSpace c = false)
    (hok : (ParseDurationL t).2 = none) :
    parsePart t = Except.ok ((ParseDurationL t).1) := by
  have h := ParseDurationL_token hne hnos
  cases hp : parsePart t with
  | ok d => rw [hp] at h; rw [h]
  | error e => rw [hp] at h; rw [h] at hok; exact absurd hok (by simp)

/-- The central composite-string fact: when the whole-string parse
fails and every token parses, `ParseDuration` returns the sum of the
tokens' values. -/
theorem ParseDurationL_sum {s : List Char}
    (hgo : goParseDuration s = none)
    (hok : ∀ t ∈ fields s, (ParseDurationL t).2 = none) :
    ParseDurationL s =
      (((fields s).map (fun t => (ParseDurationL t).1)).sum, none) := by
  rw [ParseDurationL, hgo]
  have hmap : (fields s).map partVal =
      (fields s).map (fun t => (ParseDurationL t).1) := by
    apply List.map_congr_left
    intro t ht
    obtain ⟨htne, htnos⟩ := fields_forall ht
    have := parsePart_ok_of_token htne htnos (hok t ht)
    rw [partVal, this]
  rw [← hmap]
  rw [partsLoop_ok (fields s) 0 (fun p hp => by
    obtain ⟨hpne, hpnos⟩ := fields_forall hp
    have h2 := parsePart_ok_of_token hpne hpnos (hok p hp)
    have h3 : partVal p = (ParseDurationL p).1 := by
      rw [partVal]
      simp only [h2]
    rw [h3]
    exact h2)]
  rw [Int.zero_add]

/-! ### The regex fallback -/

theorem goSegment_none_head {c : Char} {rest : List Char}
    (h : isDigitDot c = false) : goSegment (c :: rest) = none := by
  rw [goSegment]
  rw [if_pos (by simp [h])]

theorem goLoop_none_head {c : Char} {rest : List Char}
    (h : isDigitDot c = false) (d : Nat) : goLoop (c :: rest) d = none := by
  rw [goLoop_cons]
  split
  · rfl
  · rename_i v r heq
    rw [goSegment_none_head h] at heq
    exact absurd heq (by simp)

/-- Go's `time.ParseDuration` on a nonempty all-letters string fails. -/
theorem goParseDuration_none_of_alpha {s : List Char} (hne : s ≠ [])
    (hall : ∀ c ∈ s, isAsciiAlpha c = true) : goParseDuration s = none := by
  match s with
  | c :: rest =>
    have hc := hall c (List.mem_cons_self c rest)
    rw [goParseDuration]
    rw [if_neg (isAsciiAlpha_not_sign hc)]
    rw [goParseTail]
    rw [if_neg (by
      intro h
      have h0 : ('0' : Char) ∈ (c :: rest : List Char) := by rw [h]; simp
      exact absurd (hall '0' h0) (by decide))]
    rw [if_neg hne]
    rw [goLoop_none_head (isAsciiAlpha_not_digitDot hc) 0]

/-- The regex on a number followed by ASCII letters matches with the
two obvious submatches. -/
theorem reMatch_digits_alpha {v u : List Char} (hv : v ≠ [])
    (hvall : ∀ c ∈ v, isDigitDot c = true) {b : Char} {bs : List Char}
    (hu : u = b :: bs) (huall : ∀ c ∈ u, isAsciiAlpha c = true) :
    reMatch (v ++ u) = some (v, u) := by
  have hbu : isAsciiAlpha b = true := huall b (hu ▸ List.mem_cons_self b bs)
  have htw : (v ++ u).takeWhile isDigitDot = v := by
    rw [takeWhile_append_all hvall u, hu,
      takeWhile_eq_nil_of_head (isAsciiAlpha_not_digitDot hbu),
      List.append_nil]
  have hdw : (v ++ u).dropWhile isDigitDot = u := by
    rw [dropWhile_append_all hvall u, hu,
      dropWhile_eq_self_of_head (isAsciiAlpha_not_digitDot hbu)]
  have hdw2 : u.dropWhile isRegexSpace = u := by
    rw [hu, dropWhile_eq_self_of_head (isAsciiAlpha_not_regexSpace hbu)]
  rw [reMatch, htw, hdw, hdw2, if_neg hv]
  rw [if_pos ⟨hu ▸ List.cons_ne_nil b bs, List.all_eq_true.mpr huall⟩]

/-- The regex never matches a pure digits-and-dots string. -/
theorem reMatch_none_digitDot {s : List Char}
    (hall : ∀ c ∈ s, isDigitDot c = true) : reMatch s = none := by
  rw [reMatch]
  split
  · rfl
  · rw [if_neg]
    rintro ⟨hne, _⟩
    rw [List.dropWhile_eq_nil_iff.mpr hall] at hne
    simp at hne

/-- The regex never matches a string starting with a letter. -/
theorem reMatch_none_head {c : Char} {rest : List Char}
    (h : isDigitDot c = false) : reMatch (c :: rest) = none := by
  rw [reMatch, if_pos (takeWhile_eq_nil_of_head h)]

/-- The regex rejects the mis-encoded `µs` unit: its first character is
not an ASCII letter. -/
theorem reMatch_none_mojibake {v : List Char}
    (hvall : ∀ c ∈ v, isDigitDot c = true) :
    reMatch (v ++ [hatA, muChar, 's']) = none := by
  have htw : (v ++ [hatA, muChar, 's']).takeWhile isDigitDot = v := by
    rw [takeWhile_append_all hvall,
      takeWhile_eq_nil_of_head (show isDigitDot hatA = false by decide),
      List.append_nil]
  have hdw : (v ++ [hatA, muChar, 's']).dropWhile isDigitDot =
      [hatA, muChar, 's'] := by
    rw [dropWhile_append_all hvall,
      dropWhile_eq_self_of_head (show isDigitDot hatA = false by decide)]
  rw [reMatch, htw, hdw]
  rw [dropWhile_eq_self_of_head (show isRegexSpace hatA = false by decide)]
  split
  · rfl
  · rw [if_neg]
    rintro ⟨_, hall⟩
    rw [List.all_eq_true] at hall
    exact absurd (hall hatA (by simp)) (by decide)

/-- A pure digit string has the exact integer rational value. -/
theorem ratVal_digits {v : List Char}
    (hvall : ∀ c ∈ v, isDigitC c = true) :
    ratVal v = ((natVal v : Nat) : ℚ) := by
  have hnodot : ∀ c ∈ v, c ≠ '.' := by
    intro c hc heq
    subst heq
    exact absurd (hvall '.' hc) (by decide)
  rw [ratVal]
  have htw : v.takeWhile (fun c => c ≠ '.') = v := by
    rw [List.takeWhile_eq_self_iff]
    intro c hc
    simpa using hnodot c hc
  have hdw : v.dropWhile (fun c => c ≠ '.') = [] := by
    rw [List.dropWhile_eq_nil_iff]
    intro c hc
    simpa using hnodot c hc
  rw [htw, hdw]
  simp [natVal]

/-- The model `parseFloat` on a pure digit string below the overflow
threshold is exact. -/
theorem parseFloat_digits {v : List Char} (hv : v ≠ [])
    (hvall : ∀ c ∈ v, isDigitC c = true)
    (hrange : ((natVal v : Nat) : ℚ) < floatMaxBound) :
    parseFloat v = some ((natVal v : Nat) : ℚ) := by
  have hnodot : ∀ c ∈ v, c ≠ '.' := by
    intro c hc heq
    subst heq
    exact absurd (hvall '.' hc) (by decide)
  rw [parseFloat, if_pos]
  · rw [ratVal_digits hvall]
  · refine ⟨List.all_eq_true.mpr (fun c hc => isDigitC_isDigitDot (hvall c hc)), ?_, ?_, ?_⟩
    · rw [List.count_eq_zero_of_not_mem]
      · omega
      · intro hmem
        exact hnodot '.' hmem rfl
    · rw [List.countP_eq_length.mpr hvall]
      match v with
      | [] => exact absurd rfl hv
      | _ :: _ => simp
    · rw [ratVal_digits hvall]
      exact hrange

/-- Every factor of the source's unit switch is at least one. -/
theorem unitSwitch_pos {u : List Char} {q : ℚ}
    (h : unitSwitch u = some q) : 1 ≤ q := by
  rw [unitSwitch] at h
  split_ifs at h <;> simp only [Option.some.injEq] at h <;> rw [← h] <;>
    norm_num

/-- When the `unitMap` of Go's stdlib knows an ASCII unit, the source's
own switch (after `ToLower`) assigns it the same factor. -/
theorem unitSwitch_of_unitMap {u : List Char} {k : Nat}
    (h : unitMap u = some k) (hall : ∀ c ∈ u, isAsciiAlpha c = true) :
    unitSwitch (toLowerL u) = some ((k : Nat) : ℚ) := by
  rw [unitMap] at h
  split_ifs at h with h1 h2 h3 h4 h5 h6 h7 h8 <;>
    simp only [Option.some.injEq] at h <;> subst_vars
  · decide
  · decide
  · exact absurd (hall muChar (by simp)) (by decide)
  · exact absurd (hall greekMu (by simp)) (by decide)
  · decide
  · decide
  · decide
  · decide

/-- Conversely, an ASCII unit the switch rejects is also unknown to the
stdlib map. -/
theorem unitMap_none_of_switch_none {u : List Char}
    (hall : ∀ c ∈ u, isAsciiAlpha c = true)
    (hs : unitSwitch (toLowerL u) = none) : unitMap u = none := by
  cases hm : unitMap u with
  | none => rfl
  | some k =>
    rw [unitSwitch_of_unitMap hm hall] at hs
    exact absurd hs (by simp)

theorem ratTrunc_natCast_mul (n k : Nat) :
    ratTrunc ((n : ℚ) * (k : ℚ)) = ((n * k : Nat) : Int) := by
  rw [ratTrunc]
  rw [show ((n : ℚ) * (k : ℚ)) = (((n * k : Nat) : Int) : ℚ) by
    push_cast; ring]
  exact Int.floor_intCast _

/-! ### End-to-end behaviour of `ParseDuration` on token classes -/

/-- A whitespace-only (possibly empty) string parses to zero with no
error: the whole-string attempt fails, `Fields` yields no tokens, and
the loop returns the zero accumulator. -/
theorem ParseDurationL_all_space {s : List Char}
    (h : ∀ c ∈ s, isGoSpace c = true) : ParseDurationL s = (0, none) := by
  match s with
  | [] => rfl
  | c :: rest =>
    rw [ParseDurationL,
      goParseDuration_none_of_space (List.mem_cons_self c rest)
        (h c (List.mem_cons_self c rest)),
      fields_all_space h]
    rfl

/-- A nonempty digits-and-dots string other than `"0"` fails with the
`unsupported duration format` error, returning a zero duration. -/
theorem ParseDurationL_digitDot_err {s : List Char} (hne : s ≠ [])
    (hall : ∀ c ∈ s, isDigitDot c = true) (h0 : s ≠ ['0']) :
    ParseDurationL s = (0, some (PErr.unsupported s)) := by
  have hnos : ∀ c ∈ s, isGoSpace c = false := fun c hc =>
    isDigitDot_not_space (hall c hc)
  rw [ParseDurationL_token hne hnos]
  have hp : parsePart s = Except.error (PErr.unsupported s) := by
    rw [parsePart, goParseDuration_none_of_digitDot hne hall h0,
      reMatch_none_digitDot hall]
  rw [hp]

/-- A nonempty all-letters string fails with the `unsupported duration
format` error, returning a zero duration. -/
theorem ParseDurationL_alpha_err {s : List Char} (hne : s ≠ [])
    (hall : ∀ c ∈ s, isAsciiAlpha c = true) :
    ParseDurationL s = (0, some (PErr.unsupported s)) := by
  have hnos : ∀ c ∈ s, isGoSpace c = false := fun c hc =>
    isAsciiAlpha_not_space (hall c hc)
  rw [ParseDurationL_token hne hnos]
  have hp : parsePart s = Except.error (PErr.unsupported s) := by
    match s with
    | c :: rest =>
      rw [parsePart, goParseDuration_none_of_alpha hne hall,
        reMatch_none_head
          (isAsciiAlpha_not_digitDot (hall c (List.mem_cons_self c rest)))]
  rw [hp]

/-- A valid number followed by ASCII letters whose lowercasing the unit
switch rejects fails with the `unknown time unit` error. -/
theorem ParseDurationL_unknown_unit {v u : List Char} (hv : v ≠ [])
    (hvall : ∀ c ∈ v, isDigitDot c = true) (hdots : v.count '.' ≤ 1)
    (hdigs : 0 < v.countP (fun c => isDigitC c))
    (hrange : ratVal v < floatMaxBound) (hu : u ≠ [])
    (huall : ∀ c ∈ u, isAsciiAlpha c = true)
    (hswitch : unitSwitch (toLowerL u) = none) :
    ParseDurationL (v ++ u) = (0, some (PErr.unknownUnit (toLowerL u))) := by
  match u with
  | b :: bs =>
    have hmap : unitMap (b :: bs) = none :=
      unitMap_none_of_switch_none huall hswitch
    have hBu : ∀ c ∈ (b :: bs : List Char), isUnitChar c = true :=
      fun c hc => isAsciiAlpha_isUnitChar (huall c hc)
    have hgo : goParseDuration (v ++ b :: bs) = none :=
      goParseDuration_unit_fail hv hvall (List.cons_ne_nil b bs) hBu hmap
    have hnos : ∀ c ∈ v ++ b :: bs, isGoSpace c = false := by
      intro c hc
      rcases List.mem_append.mp hc with h | h
      · exact isDigitDot_not_space (hvall c h)
      · exact isAsciiAlpha_not_space (huall c h)
    have hne2 : v ++ b :: bs ≠ [] := by
      simp [List.append_eq_nil]
    rw [ParseDurationL_token hne2 hnos]
    have hpf : parseFloat v = some (ratVal v) := by
      rw [parseFloat,
        if_pos ⟨List.all_eq_true.mpr hvall, hdots, hdigs, hrange⟩]
    have hp : parsePart (v ++ b :: bs) =
        Except.error (PErr.unknownUnit (toLowerL (b :: bs))) := by
      rw [parsePart]
      simp only [hgo, reMatch_digits_alpha hv hvall rfl huall, hpf, hswitch]
    rw [hp]

/-- Weaker variant used for the unrecognized-unit edge case: a
digits-and-dots run followed by letters the switch rejects always
errors (with either the bad-value or the unknown-unit message). -/
theorem ParseDurationL_badtoken {v u : List Char} (hv : v ≠ [])
    (hvall : ∀ c ∈ v, isDigitDot c = true) (hu : u ≠ [])
    (huall : ∀ c ∈ u, isAsciiAlpha c = true)
    (hswitch : unitSwitch (toLowerL u) = none) :
    ∃ e, ParseDurationL (v ++ u) = (0, some e) := by
  match u with
  | b :: bs =>
    have hmap : unitMap (b :: bs) = none :=
      unitMap_none_of_switch_none huall hswitch
    have hBu : ∀ c ∈ (b :: bs : List Char), isUnitChar c = true :=
      fun c hc => isAsciiAlpha_isUnitChar (huall c hc)
    have hgo : goParseDuration (v ++ b :: bs) = none :=
      goParseDuration_unit_fail hv hvall (List.cons_ne_nil b bs) hBu hmap
    have hnos : ∀ c ∈ v ++ b :: bs, isGoSpace c = false := by
      intro c hc
      rcases List.mem_append.mp hc with h | h
      · exact isDigitDot_not_space (hvall c h)
      · exact isAsciiAlpha_not_space (huall c h)
    have hne2 : v ++ b :: bs ≠ [] := by
      simp [List.append_eq_nil]
    rw [ParseDurationL_token hne2 hnos]
    have hrm : reMatch (v ++ b :: bs) = some (v, b :: bs) :=
      reMatch_digits_alpha hv hvall rfl huall
    cases hpf : parseFloat v with
    | none =>
      refine ⟨PErr.badValue v, ?_⟩
      have hp : parsePart (v ++ b :: bs) =
          Except.error (PErr.badValue v) := by
        rw [parsePart]
        simp only [hgo, hrm, hpf]
      rw [hp]
    | some q =>
      refine ⟨PErr.unknownUnit (toLowerL (b :: bs)), ?_⟩
      have hp : parsePart (v ++ b :: bs) =
          Except.error (PErr.unknownUnit (toLowerL (b :: bs))) := by
        rw [parsePart]
        simp only [hgo, hrm, hpf, hswitch]
      rw [hp]

/-- The central single-token success lemma: an integer numeral followed
by an ASCII alias of the unit table, in any letter case, parses to
exactly `value * scale` (both through the stdlib path, when the alias is
a lowercase stdlib unit, and through the regex fallback otherwise). -/
theorem ParseDurationL_alias {v u : List Char} {k : Nat} (hv : v ≠ [])
    (hvall : ∀ c ∈ v, isDigitC c = true) (hu : u ≠ [])
    (huall : ∀ c ∈ u, isAsciiAlpha c = true)
    (hswitch : unitSwitch (toLowerL u) = some ((k : Nat) : ℚ))
    (hbound : natVal v * k ≤ 9007199254740992) :
    ParseDurationL (v ++ u) = (((natVal v * k : Nat) : Int), none) := by
  have hvdd : ∀ c ∈ v, isDigitDot c = true := fun c hc =>
    isDigitC_isDigitDot (hvall c hc)
  cases hm : unitMap u with
  | some k0 =>
    have hk0 : ((k0 : Nat) : ℚ) = ((k : Nat) : ℚ) := by
      have := unitSwitch_of_unitMap hm huall
      rw [hswitch] at this
      simpa using this.symm
    have hkk : k0 = k := Nat.cast_injective hk0
    subst hkk
    have hgo : goParseDuration (v ++ u) = some ((natVal v * k0 : Nat) : Int) :=
      goParseDuration_digits_unit hv hvall hu
        (fun c hc => isAsciiAlpha_isUnitChar (huall c hc)) hm (by omega)
    rw [ParseDurationL, hgo]
  | none =>
    match u with
    | b :: bs =>
      have hBu : ∀ c ∈ (b :: bs : List Char), isUnitChar c = true :=
        fun c hc => isAsciiAlpha_isUnitChar (huall c hc)
      have hgo : goParseDuration (v ++ b :: bs) = none :=
        goParseDuration_unit_fail hv hvdd (List.cons_ne_nil b bs) hBu hm
      have hnos : ∀ c ∈ v ++ b :: bs, isGoSpace c = false := by
        intro c hc
        rcases List.mem_append.mp hc with h | h
        · exact isDigitDot_not_space (hvdd c h)
        · exact isAsciiAlpha_not_space (huall c h)
      have hne2 : v ++ b :: bs ≠ [] := by
        simp [List.append_eq_nil]
      rw [ParseDurationL_token hne2 hnos]
      have hk1 : 1 ≤ k := by
        have h1 := unitSwitch_pos hswitch
        exact_mod_cast h1
      have hvsmall : natVal v ≤ 9007199254740992 := by
        calc natVal v = natVal v * 1 := (Nat.mul_one _).symm
        _ ≤ natVal v * k := Nat.mul_le_mul le_rfl hk1
        _ ≤ _ := hbound
      have hrange : ((natVal v : Nat) : ℚ) < floatMaxBound := by
        calc ((natVal v : Nat) : ℚ) ≤ (9007199254740992 : ℚ) := by
              exact_mod_cast hvsmall
        _ < floatMaxBound := by decide
      have hp : parsePart (v ++ b :: bs) =
          Except.ok (((natVal v * k : Nat) : Int)) := by
        rw [parsePart]
        simp only [hgo, reMatch_digits_alpha hv hvdd rfl huall,
          parseFloat_digits hv hvall hrange, hswitch, ratTrunc_natCast_mul]
      rw [hp]

/-- The lowercase `µs` alias parses through the stdlib path. -/
theorem ParseDurationL_mus {v : List Char} (hv : v ≠ [])
    (hvall : ∀ c ∈ v, isDigitC c = true)
    (hbound : natVal v * 1000 ≤ 9223372036854775807) :
    ParseDurationL (v ++ [muChar, 's']) =
      (((natVal v * 1000 : Nat) : Int), none) := by
  have hgo : goParseDuration (v ++ [muChar, 's']) =
      some ((natVal v * 1000 : Nat) : Int) :=
    goParseDuration_digits_unit hv hvall (by simp)
      (by intro c hc; fin_cases hc <;> decide) (by decide) hbound
  rw [ParseDurationL, hgo]

/-- A numeral at or above the `float64` overflow threshold followed by
letters the switch rejects fails with the value-parse error (the
`ErrRange` of `strconv.ParseFloat`), never reaching the unit switch. -/
theorem ParseDurationL_range_err {v u : List Char} (hv : v ≠ [])
    (hvall : ∀ c ∈ v, isDigitDot c = true)
    (hrange : floatMaxBound ≤ ratVal v) (hu : u ≠ [])
    (huall : ∀ c ∈ u, isAsciiAlpha c = true)
    (hswitch : unitSwitch (toLowerL u) = none) :
    ParseDurationL (v ++ u) = (0, some (PErr.badValue v)) := by
  match u with
  | b :: bs =>
    have hmap : unitMap (b :: bs) = none :=
      unitMap_none_of_switch_none huall hswitch
    have hBu : ∀ c ∈ (b :: bs : List Char), isUnitChar c = true :=
      fun c hc => isAsciiAlpha_isUnitChar (huall c hc)
    have hgo : goParseDuration (v ++ b :: bs) = none :=
      goParseDuration_unit_fail hv hvall (List.cons_ne_nil b bs) hBu hmap
    have hnos : ∀ c ∈ v ++ b :: bs, isGoSpace c = false := by
      intro c hc
      rcases List.mem_append.mp hc with h | h
      · exact isDigitDot_not_space (hvall c h)
      · exact isAsciiAlpha_not_space (huall c h)
    have hne2 : v ++ b :: bs ≠ [] := by
      simp [List.append_eq_nil]
    rw [ParseDurationL_token hne2 hnos]
    have hpf : parseFloat v = none := by
      rw [parseFloat, if_neg]
      rintro ⟨_, _, _, hlt⟩
      exact absurd hlt (not_lt.mpr hrange)
    have hp : parsePart (v ++ b :: bs) =
        Except.error (PErr.badValue v) := by
      rw [parsePart]
      simp only [hgo, reMatch_digits_alpha hv hvall rfl huall, hpf]
    rw [hp]

/-- The mis-encoded `µs` of the source's switch is unreachable: a number
followed by it is rejected outright with `unsupported duration
format`. -/
theorem ParseDurationL_mojibake {v : List Char} (hv : v ≠ [])
    (hvall : ∀ c ∈ v, isDigitC c = true) :
    ParseDurationL (v ++ [hatA, muChar, 's']) =
      (0, some (PErr.unsupported (v ++ [hatA, muChar, 's']))) := by
  have hvdd : ∀ c ∈ v, isDigitDot c = true := fun c hc =>
    isDigitC_isDigitDot (hvall c hc)
  have hgo : goParseDuration (v ++ [hatA, muChar, 's']) = none :=
    goParseDuration_unit_fail hv hvdd (by simp)
      (by intro c hc; fin_cases hc <;> decide) (by decide)
  have hnos : ∀ c ∈ v ++ [hatA, muChar, 's'], isGoSpace c = false := by
    intro c hc
    rcases List.mem_append.mp hc with h | h
    · exact isDigitDot_not_space (hvdd c h)
    · fin_cases h <;> decide
  have hne2 : v ++ [hatA, muChar, 's'] ≠ [] := by
    simp [List.append_eq_nil]
  rw [ParseDurationL_token hne2 hnos]
  have hp : parsePart (v ++ [hatA, muChar, 's']) =
      Except.error (PErr.unsupported (v ++ [hatA, muChar, 's'])) := by
    rw [parsePart, hgo, reMatch_none_mojibake hvdd]
  rw [hp]

/-! ### The aggregator -/

/-- The row loop is the filtered sum of row contributions together with
the list of warnings, in row order. -/
theorem processRows_eq (idx : Nat) : ∀ (rows : List (List Char)) (acc : Int),
    processRows idx rows acc =
      (acc + (rows.filterMap (rowVal idx)).sum,
       rows.filterMap (rowWarn idx)) := by
  intro rows
  induction rows with
  | nil => intro acc; simp [processRows]
  | cons line rest ih =>
    intro acc
    rw [processRows]
    by_cases hlen : (splitTab line).length ≤ idx
    · rw [if_pos hlen, ih acc]
      rw [List.filterMap_cons_none, List.filterMap_cons_none]
      · rw [rowWarn, if_pos hlen]
      · rw [rowVal, if_pos hlen]
    · rw [if_neg hlen]
      rcases hpd : ParseDurationL ((splitTab line).getD idx []) with ⟨d, o⟩
      cases o with
      | none =>
        simp only [hpd]
        rw [ih (acc + d)]
        rw [List.filterMap_cons_some (by rw [rowVal, if_neg hlen]; simp only [hpd] : rowVal idx line = some d)]
        rw [List.filterMap_cons_none (by rw [rowWarn, if_neg hlen]; simp only [hpd] : rowWarn idx line = none)]
        rw [List.sum_cons, Int.add_assoc]
      | some e =>
        simp only [hpd]
        rw [ih acc]
        rw [List.filterMap_cons_none (by rw [rowVal, if_neg hlen]; simp only [hpd] : rowVal idx line = none)]
        rw [List.filterMap_cons_some (by rw [rowWarn, if_neg hlen]; simp only [hpd] : rowWarn idx line = some ((splitTab line).getD idx [], e))]

theorem findIdx?_first {α : Type} (p : α → Bool) :
    ∀ (pre : List α) (x : α) (post : List α) (i : Nat),
      (∀ a ∈ pre, p a = false) → p x = true →
      List.findIdx? p (pre ++ x :: post) i = some (i + pre.length) := by
  intro pre
  induction pre with
  | nil =>
    intro x post i _ hx
    rw [List.nil_append, List.findIdx?_cons, if_pos hx]
    simp
  | cons a pre ih =>
    intro x post i hpre hx
    rw [List.cons_append, List.findIdx?_cons,
      if_neg (by simp [hpre a (List.mem_cons_self a pre)])]
    rw [ih x post (i + 1) (fun b hb => hpre b (List.mem_cons.mpr (Or.inr hb))) hx]
    simp only [List.length_cons, Option.some.injEq]
    omega

/-- When the header names a `duration` column, the aggregator returns
the filtered sum, the row warnings, and no error. -/
theorem calc_found {hdr : List Char} {rows : List (List Char)} {idx : Nat}
    (h : (splitTab hdr).findIdx? (fun col => col = tDuration) = some idx) :
    calculateTotalDurationL (hdr :: rows) =
      ((rows.filterMap (rowVal idx)).sum,
       rows.filterMap (rowWarn idx), none) := by
  rw [calculateTotalDurationL]
  simp only [h]
  rw [processRows_eq]
  rw [Int.zero_add]

theorem parsePart_ok_partVal {t : List Char} (hne : t ≠ [])
    (hnos : ∀ c ∈ t, isGoSpace c = false)
    (hok : (ParseDurationL t).2 = none) :
    parsePart t = Except.ok (partVal t) := by
  have h2 := parsePart_ok_of_token hne hnos hok
  have h3 : partVal t = (ParseDurationL t).1 := by
    rw [partVal]
    simp only [h2]
  rw [h3]
  exact h2

/-! ### Claims -/

/-- Claim C1, counterexample: contrary to the claim that `ParseDuration`
fails with a `ParseError` on the empty string, it returns duration 0
with a nil error — the whole-string `time.ParseDuration` attempt fails,
but then `strings.Fields` produces no tokens and the loop returns the
zero accumulator with no error. -/
theorem claim_C1_counterexample : ParseDuration "" = (0, none) := by decide

/-- Claim C1, amended: `ParseDuration` returns `(0, nil)` — success, not
a `ParseError` — on the empty string and on every whitespace-only
string, and likewise on the bare token `"0"` (Go's special case).  Every
other bare number with no unit (digits and dots only), every unit with
no number (a nonempty all-letters string), and every token of a number
followed by an unrecognized ASCII unit fails, returning duration 0
alongside the error. -/
theorem claim_C1_amended :
    (∀ s : List Char, (∀ c ∈ s, isGoSpace c = true) →
      ParseDurationL s = (0, none)) ∧
    ParseDurationL ['0'] = (0, none) ∧
    (∀ s : List Char, s ≠ [] → (∀ c ∈ s, isDigitDot c = true) →
      s ≠ ['0'] → ParseDurationL s = (0, some (PErr.unsupported s))) ∧
    (∀ s : List Char, s ≠ [] → (∀ c ∈ s, isAsciiAlpha c = true) →
      ParseDurationL s = (0, some (PErr.unsupported s))) ∧
    (∀ v u : List Char, v ≠ [] → (∀ c ∈ v, isDigitDot c = true) →
      u ≠ [] → (∀ c ∈ u, isAsciiAlpha c = true) →
      unitSwitch (toLowerL u) = none →
      ∃ e, ParseDurationL (v ++ u) = (0, some e)) :=
  ⟨fun _ h => ParseDurationL_all_space h,
   by decide,
   fun _ h1 h2 h3 => ParseDurationL_digitDot_err h1 h2 h3,
   fun _ h1 h2 => ParseDurationL_alpha_err h1 h2,
   fun _ _ h1 h2 h3 h4 h5 => ParseDurationL_badtoken h1 h2 h3 h4 h5⟩

/-- Claim C1, witness: the amended claim evaluated at `" "`, `"5"`,
`"abc"` and `"5xyz"`. -/
theorem claim_C1_witness :
    ParseDurationL [' '] = (0, none) ∧
    ParseDurationL ['5'] = (0, some (PErr.unsupported ['5'])) ∧
    ParseDurationL ['a', 'b', 'c'] =
      (0, some (PErr.unsupported ['a', 'b', 'c'])) ∧
    (∃ e, ParseDurationL (['5'] ++ ['x', 'y', 'z']) = (0, some e)) :=
  ⟨claim_C1_amended.1 [' '] (by decide),
   claim_C1_amended.2.2.1 ['5'] (by decide) (by decide) (by decide),
   claim_C1_amended.2.2.2.1 ['a', 'b', 'c'] (by decide) (by decide),
   claim_C1_amended.2.2.2.2 ['5'] ['x', 'y', 'z'] (by decide) (by decide)
     (by decide) (by decide) (by decide)⟩

/-- Claim C2, counterexample: the literal two-byte mis-encoding of `µ`
is NOT an accepted alias — `ParseDuration "5Âµs"` fails with
`unsupported duration format` instead of returning 5000ns: the regex
`[a-zA-Z]+` cannot match the non-ASCII bytes, so the switch case for the
mis-encoded alias is unreachable. -/
theorem claim_C2_counterexample :
    ParseDurationL ['5', hatA, muChar, 's'] =
      (0, some (PErr.unsupported ['5', hatA, muChar, 's'])) := by decide

/-- Claim C2, amended: for every unsigned integer numeral and every
ASCII alias of the unit table, in any letter case (with the product
below `2^53`, where the double-precision fallback is exact),
`ParseDuration` returns exactly the value times the alias's scale; the
plain lowercase `µs` alias also works (through the stdlib path); the
mis-encoded `µ` alias is rejected with `unsupported duration format`;
a valid number below the `float64` overflow threshold followed by any
other ASCII-letter unit fails with `unknown time unit`; and a numeral
at or above that threshold fails earlier, with the value-parse error
from `strconv.ParseFloat`'s `ErrRange`. -/
theorem claim_C2_amended :
    (∀ (v u : List Char) (k : Nat), v ≠ [] →
      (∀ c ∈ v, isDigitC c = true) → u ≠ [] →
      (∀ c ∈ u, isAsciiAlpha c = true) →
      unitSwitch (toLowerL u) = some ((k : Nat) : ℚ) →
      natVal v * k ≤ 9007199254740992 →
      ParseDurationL (v ++ u) = (((natVal v * k : Nat) : Int), none)) ∧
    (∀ v : List Char, v ≠ [] → (∀ c ∈ v, isDigitC c = true) →
      natVal v * 1000 ≤ 9223372036854775807 →
      ParseDurationL (v ++ [muChar, 's']) =
        (((natVal v * 1000 : Nat) : Int), none)) ∧
    (∀ v : List Char, v ≠ [] → (∀ c ∈ v, isDigitC c = true) →
      ParseDurationL (v ++ [hatA, muChar, 's']) =
        (0, some (PErr.unsupported (v ++ [hatA, muChar, 's'])))) ∧
    (∀ v u : List Char, v ≠ [] → (∀ c ∈ v, isDigitDot c = true) →
      v.count '.' ≤ 1 → 0 < v.countP (fun c => isDigitC c) →
      ratVal v < floatMaxBound →
      u ≠ [] → (∀ c ∈ u, isAsciiAlpha c = true) →
      unitSwitch (toLowerL u) = none →
      ParseDurationL (v ++ u) =
        (0, some (PErr.unknownUnit (toLowerL u)))) ∧
    (∀ v u : List Char, v ≠ [] → (∀ c ∈ v, isDigitDot c = true) →
      floatMaxBound ≤ ratVal v →
      u ≠ [] → (∀ c ∈ u, isAsciiAlpha c = true) →
      unitSwitch (toLowerL u) = none →
      ParseDurationL (v ++ u) = (0, some (PErr.badValue v))) :=
  ⟨fun _ _ _ h1 h2 h3 h4 h5 h6 => ParseDurationL_alias h1 h2 h3 h4 h5 h6,
   fun _ h1 h2 h3 => ParseDurationL_mus h1 h2 h3,
   fun _ h1 h2 => ParseDurationL_mojibake h1 h2,
   fun _ _ h1 h2 h3 h4 h5 h6 h7 h8 =>
     ParseDurationL_unknown_unit h1 h2 h3 h4 h5 h6 h7 h8,
   fun _ _ h1 h2 h3 h4 h5 h6 =>
     ParseDurationL_range_err h1 h2 h3 h4 h5 h6⟩

/-- Claim C2, witness: the amended claim evaluated at `"5Sec"` (a mixed
case alias through the fallback), `"5µs"` (proper micro sign, stdlib
path), `"7Âµs"` (mis-encoded, rejected), `"5xyz"` (unknown unit) and a
310-digit numeral followed by `"q"` (range error). -/
theorem claim_C2_witness :
    ParseDurationL (['5'] ++ ['S', 'e', 'c']) = (5000000000, none) ∧
    ParseDurationL (['5'] ++ [muChar, 's']) = (5000, none) ∧
    ParseDurationL (['7'] ++ [hatA, muChar, 's']) =
      (0, some (PErr.unsupported (['7'] ++ [hatA, muChar, 's']))) ∧
    ParseDurationL (['5'] ++ ['x', 'y', 'z']) =
      (0, some (PErr.unknownUnit (toLowerL ['x', 'y', 'z']))) ∧
    ParseDurationL (('1' :: List.replicate 309 '0') ++ ['q']) =
      (0, some (PErr.badValue ('1' :: List.replicate 309 '0'))) :=
  ⟨(claim_C2_amended.1 ['5'] ['S', 'e', 'c'] 1000000000 (by decide)
      (by decide) (by decide) (by decide) (by decide) (by decide)).trans
      (by decide),
   (claim_C2_amended.2.1 ['5'] (by decide) (by decide) (by decide)).trans
      (by decide),
   claim_C2_amended.2.2.1 ['7'] (by decide) (by decide),
   claim_C2_amended.2.2.2.1 ['5'] ['x', 'y', 'z'] (by decide) (by decide)
     (by decide) (by decide) (by decide) (by decide) (by decide)
     (by decide),
   claim_C2_amended.2.2.2.2 ('1' :: List.replicate 309 '0') ['q']
     (by decide) (by decide) (by decide) (by decide) (by decide)
     (by decide)⟩

/-- Claim C3: on a string of two or more whitespace-separated tokens
that each parse, `ParseDuration` returns exactly the sum of the values
`ParseDuration` gives each token independently (the whole-string stdlib
attempt necessarily fails on the embedded whitespace). -/
theorem claim_C3 : ∀ (s t1 t2 : List Char) (ts : List (List Char)),
    fields s = t1 :: t2 :: ts →
    (∀ t ∈ fields s, (ParseDurationL t).2 = none) →
    ParseDurationL s =
      (((fields s).map (fun t => (ParseDurationL t).1)).sum, none) := by
  intro s t1 t2 ts hf hok
  obtain ⟨c, hc, hcs⟩ := exists_space_of_fields_two hf
  exact ParseDurationL_sum (goParseDuration_none_of_space hc hcs) hok

/-- Claim C3, witness: `"1h 30m"` sums its two tokens to 5400 seconds in
nanoseconds. -/
theorem claim_C3_witness :
    ParseDurationL ['1', 'h', ' ', '3', '0', 'm'] = (5400000000000, none) :=
  (claim_C3 ['1', 'h', ' ', '3', '0', 'm'] ['1', 'h'] ['3', '0', 'm'] []
    (by decide) (by decide)).trans (by decide)

/-- Claim C4, counterexample: `"1h30m"` — a single token with two
number+unit pairs, which the claim says must fail — parses successfully
to 90 minutes through the whole-string `time.ParseDuration` attempt. -/
theorem claim_C4_counterexample :
    ParseDuration "1h30m" = (5400000000000, none) := by decide

/-- Claim C4, amended: `ParseDuration` succeeds on any whole string Go's
`time.ParseDuration` accepts (that grammar admits signs and concatenated
pairs such as `"1h30m"`); otherwise it succeeds exactly when every
whitespace-separated token individually parses, and on failure it
returns the error produced by the first unparseable token. -/
theorem claim_C4_amended :
    (∀ (s : List Char) (d : Int), goParseDuration s = some d →
      ParseDurationL s = (d, none)) ∧
    (∀ s : List Char, goParseDuration s = none →
      (∀ t ∈ fields s, (ParseDurationL t).2 = none) →
      (ParseDurationL s).2 = none) ∧
    (∀ (s t : List Char) (pre post : List (List Char)) (e : PErr),
      goParseDuration s = none → fields s = pre ++ t :: post →
      (∀ t' ∈ pre, (ParseDurationL t').2 = none) →
      (ParseDurationL t).2 = some e →
      ParseDurationL s = (0, some e)) := by
  refine ⟨fun s d h => by rw [ParseDurationL, h], ?_, ?_⟩
  · intro s hgo hok
    rw [ParseDurationL_sum hgo hok]
  · intro s t pre post e hgo hf hpre ht
    have htmem : t ∈ fields s := by
      rw [hf]
      exact List.mem_append_right pre (List.mem_cons_self t post)
    obtain ⟨htne, htnos⟩ := fields_forall htmem
    have htok := ParseDurationL_token htne htnos
    have hperr : parsePart t = Except.error e := by
      cases hp : parsePart t with
      | ok d =>
        rw [hp] at htok
        rw [htok] at ht
        exact absurd ht (by simp)
      | error e2 =>
        rw [hp] at htok
        rw [htok] at ht
        simp only [Option.some.injEq] at ht
        rw [ht]
    rw [ParseDurationL, hgo, hf]
    refine partsLoop_err pre t post 0 e ?_ hperr
    intro q hq
    have hqmem : q ∈ fields s := by
      rw [hf]
      exact List.mem_append_left _ hq
    obtain ⟨hqne, hqnos⟩ := fields_forall hqmem
    exact parsePart_ok_partVal hqne hqnos (hpre q hq)

/-- Claim C4, witness: `"2h 5q 3s"` fails with the error of its first
bad token `"5q"` (an unknown unit), after the good token `"2h"`. -/
theorem claim_C4_witness :
    ParseDurationL ['2', 'h', ' ', '5', 'q', ' ', '3', 's'] =
      (0, some (PErr.unknownUnit ['q'])) :=
  claim_C4_amended.2.2 ['2', 'h', ' ', '5', 'q', ' ', '3', 's'] ['5', 'q']
    [['2', 'h']] [['3', 's']] (PErr.unknownUnit ['q'])
    (by decide) (by decide) (by decide) (by decide)

/-- Claim C5: aggregating the file with header `id⇥duration⇥status` and
rows `a⇥1h⇥ok`, `b⇥30m⇥ok` yields exactly 90 minutes, no warnings and
no error. -/
theorem claim_C5 :
    calculateTotalDuration
      ["id\tduration\tstatus", "a\t1h\tok", "b\t30m\tok"] =
      (90 * 60 * 1000000000, [], none) := by decide

/-- Claim C6: once the header names a `duration` column, no data row can
abort the aggregation: the result is `ok`, the total is the sum of the
parsed durations of exactly the rows whose duration field parses
successfully, and each long-enough row whose field fails to parse
contributes a warning instead. -/
theorem claim_C6 : ∀ (hdr : List Char) (rows : List (List Char)) (idx : Nat),
    (splitTab hdr).findIdx? (fun col => col = tDuration) = some idx →
    calculateTotalDurationL (hdr :: rows) =
      ((rows.filterMap (rowVal idx)).sum,
       rows.filterMap (rowWarn idx), none) :=
  fun _ _ _ h => calc_found h

/-- Claim C6, witness: a file with one unparseable row and one good row
totals only the good row and warns about the bad one. -/
theorem claim_C6_witness :
    calculateTotalDurationL
      ["id\tduration".data, "a\tbogus".data, "b\t2s".data] =
      (2000000000,
       [(['b', 'o', 'g', 'u', 's'], PErr.unsupported ['b', 'o', 'g', 'u', 's'])],
       none) :=
  (claim_C6 "id\tduration".data ["a\tbogus".data, "b\t2s".data] 1
    (by decide)).trans (by decide)

/-- Claim C7: a header with no `duration` field fails with the
missing-column error and a zero total; when `duration` occurs, the
zero-based index of its first occurrence is the column used. -/
theorem claim_C7 :
    (∀ (hdr : List Char) (rows : List (List Char)),
      (∀ col ∈ splitTab hdr, col ≠ tDuration) →
      calculateTotalDurationL (hdr :: rows) =
        (0, [], some AggErr.noDurationColumn)) ∧
    (∀ (hdr : List Char) (rows pre post : List (List Char)),
      splitTab hdr = pre ++ tDuration :: post →
      (∀ col ∈ pre, col ≠ tDuration) →
      calculateTotalDurationL (hdr :: rows) =
        ((rows.filterMap (rowVal pre.length)).sum,
         rows.filterMap (rowWarn pre.length), none)) := by
  constructor
  · intro hdr rows h
    rw [calculateTotalDurationL]
    have hnone : (splitTab hdr).findIdx? (fun col => col = tDuration) =
        none :=
      List.findIdx?_eq_none_iff.mpr fun x hx => by simp [h x hx]
    simp only [hnone]
  · intro hdr rows pre post hsplit hpre
    have hfind : (splitTab hdr).findIdx? (fun col => col = tDuration) =
        some pre.length := by
      rw [hsplit]
      have := findIdx?_first (fun col => col = tDuration) pre tDuration post
        0 (fun a ha => by simp [hpre a ha]) (by simp)
      simpa using this
    exact calc_found hfind

/-- Claim C7, witness: a header without the column errors with a zero
total; a header with two `duration` columns uses the first (index 1, so
the row's `1h`, not its `2h`). -/
theorem claim_C7_witness :
    calculateTotalDurationL ["id\tdur".data, "a\t1h".data] =
      (0, [], some AggErr.noDurationColumn) ∧
    calculateTotalDurationL
      ["x\tduration\tduration".data, "a\t1h\t2h".data] =
      (3600000000000, [], none) :=
  ⟨claim_C7.1 "id\tdur".data ["a\t1h".data] (by decide),
   (claim_C7.2 "x\tduration\tduration".data ["a\t1h\t2h".data] [['x']]
     [tDuration] (by decide) (by decide)).trans (by decide)⟩

/-- Claim C8: a data row with at most `durationIdx` tab-separated fields
is skipped silently — removing it changes neither the total, nor the
warnings, nor the error of the aggregation. -/
theorem claim_C8 : ∀ (hdr : List Char) (rows1 rows2 : List (List Char))
    (line : List Char) (idx : Nat),
    (splitTab hdr).findIdx? (fun col => col = tDuration) = some idx →
    (splitTab line).length ≤ idx →
    calculateTotalDurationL (hdr :: (rows1 ++ line :: rows2)) =
      calculateTotalDurationL (hdr :: (rows1 ++ rows2)) := by
  intro hdr rows1 rows2 line idx h hlen
  rw [calc_found h, calc_found h]
  rw [List.filterMap_append, List.filterMap_append, List.filterMap_append,
    List.filterMap_append]
  rw [List.filterMap_cons_none
    (by rw [rowVal, if_pos hlen] : rowVal idx line = none)]
  rw [List.filterMap_cons_none
    (by rw [rowWarn, if_pos hlen] : rowWarn idx line = none)]

/-- Claim C8, witness: inserting the short row `"x"` between two good
rows leaves the aggregation unchanged. -/
theorem claim_C8_witness :
    calculateTotalDurationL
      ["id\tduration".data, "a\t1h".data, "x".data, "b\t30m".data] =
    calculateTotalDurationL
      ["id\tduration".data, "a\t1h".data, "b\t30m".data] :=
  claim_C8 "id\tduration".data ["a\t1h".data] ["b\t30m".data] "x".data 1
    (by decide) (by decide)

/-- Claim C9: whenever the header line contains a field exactly equal to
`duration`, the aggregation returns no error, whatever the data rows
contain (I/O failures are outside the model). -/
theorem claim_C9 : ∀ (hdr : List Char) (rows : List (List Char)),
    tDuration ∈ splitTab hdr →
    (calculateTotalDurationL (hdr :: rows)).2.2 = none := by
  intro hdr rows hmem
  cases hf : (splitTab hdr).findIdx? (fun col => col = tDuration) with
  | none =>
    have := List.findIdx?_eq_none_iff.mp hf tDuration hmem
    simp at this
  | some idx => rw [calc_found hf]

/-- Claim C9, witness: thoroughly malformed data rows still do not make
the aggregation fail. -/
theorem claim_C9_witness :
    (calculateTotalDurationL
      ["id\tduration".data, "garbage".data, "a\t!!".data]).2.2 = none :=
  claim_C9 "id\tduration".data ["garbage".data, "a\t!!".data] (by decide)

/-- Claim C10: whenever `ParseDuration` returns a non-nil error, the
duration returned alongside it is exactly zero. -/
theorem claim_C10 : ∀ s : List Char,
    (ParseDurationL s).2.isSome = true → (ParseDurationL s).1 = 0 := by
  intro s h
  rw [ParseDurationL] at h ⊢
  cases hgo : goParseDuration s with
  | some d =>
    rw [hgo] at h
    have h2 : (none : Option PErr).isSome = true := h
    simp at h2
  | none =>
    rw [hgo] at h
    have h2 : (partsLoop (fields s) 0).2.isSome = true := h
    rcases partsLoop_shape (fields s) 0 with ⟨x, hx⟩ | ⟨e, he⟩
    · rw [hx] at h2
      simp at h2
    · show (partsLoop (fields s) 0).1 = 0
      rw [he]

/-- Claim C10, witness: `"abc"` errors, and the duration alongside the
error is zero. -/
theorem claim_C10_witness :
    (ParseDurationL ['a', 'b', 'c']).2.isSome = true ∧
    (ParseDurationL ['a', 'b', 'c']).1 = 0 :=
  ⟨by decide, claim_C10 ['a', 'b', 'c'] (by decide)⟩

end Nfu
